import Mathlib

/-!
Verification of the svrx execution core (src/core/execution.py) against its
natural-language specification.

The embedding covers:
  * the nested data container `SvDataTree` (the implementation file
    svrx/core/data_tree.py is not part of the sources; the container is
    modelled from the spec, see the doc comments below);
  * the level-matching engine `recurse_levels`;
  * the scheduler `topo_sort` (weights via backward depth-first traversal);
  * the preprocessor `filter_reroute` / `verify_links` / `DAG`;
  * the result cache `SvTreeDB`;
  * the per-node part of the execution driver `exec_node_group`.

Python values passed between node functions are modelled by the nested value
type `V`; partiality (IndexError, TypeError, non-termination of the
recursions) is modelled with `Except Err` and explicit fuel.
-/

namespace SvRx

/-- Nested Python values exchanged with node functions: `vnone` is Python's
`None`, `atom` an atomic payload, `seq` a list/tuple. -/
inductive V (α : Type) where
  | vnone : V α
  | atom (a : α) : V α
  | seq (vs : List (V α)) : V α

/-- Modelled from the spec: the Nested Container ("DataTree", class
`SvDataTree` of the missing file svrx/core/data_tree.py).  A container holds
a payload slot (`data`, Python attribute initialised to `None`) and an
ordered sequence of child containers. -/
inductive SvDataTree (α : Type) where
  | mk (data : V α) (children : List (SvDataTree α))

/-- Payload slot of a container. -/
def SvDataTree.data {α : Type} : SvDataTree α → V α
  | .mk d _ => d

/-- Child sequence of a container. -/
def SvDataTree.children {α : Type} : SvDataTree α → List (SvDataTree α)
  | .mk _ cs => cs

mutual
/-- Modelled from the spec: the derived `level` of a container — 0 for a
childless container, otherwise 1 + the maximum level of its children
(spec section 3, invariant of the Nested Container). -/
def SvDataTree.level {α : Type} : SvDataTree α → Nat
  | .mk _ cs =>
    match cs with
    | [] => 0
    | c :: rest => 1 + SvDataTree.levelMax (c :: rest)

/-- Maximum level over a list of containers. -/
def SvDataTree.levelMax {α : Type} : List (SvDataTree α) → Nat
  | [] => 0
  | c :: cs => max c.level (SvDataTree.levelMax cs)
end

/-- Failure modes of the modelled Python code.  `outOfFuel` is the encoding
artefact for non-termination of the modelled recursions. -/
inductive Err where
  | indexError
  | typeError
  | outOfFuel
deriving DecidableEq, Repr

/-- Events recorded while executing one node: the stateful `start` hook, one
invocation of the node function, the stateful `stop` hook. -/
inductive Ev where
  | start
  | call
  | stop
deriving DecidableEq, Repr

/-- Modelled from the spec: iterating an `SvDataTree` (`list(tree)` in
`recurse_levels`) yields "the ordered sequence of its children's payloads". -/
def list_data {α : Type} (t : SvDataTree α) : V α :=
  V.seq (t.children.map SvDataTree.data)

/-- Modelled from the spec: `SvDataTree.assign(level, result)` of the missing
data_tree.py writes a function result into a container "at its declared
level": at level 0 the container holds the result as its payload, at level 1
the result must be a sequence and becomes the payloads of fresh leaf
children.  Declared levels beyond 1 are not produced by `parse_type`
(node_base.py: "right now only supports one level"). -/
def assignTree {α : Type} : Nat → V α → Except Err (SvDataTree α)
  | 0, v => .ok (.mk v [])
  | 1, .seq vs => .ok (.mk .vnone (vs.map (fun v => .mk v [])))
  | 1, _ => .error .typeError
  | _ + 2, _ => .error .typeError

/-- Python iteration of a value: sequences iterate, everything else raises
TypeError. -/
def asSeq {α : Type} : V α → Except Err (List (V α))
  | .seq vs => .ok vs
  | _ => .error .typeError

/-- Effectful map over `Except`: apply `g` to each element in order, stopping
at the first failure (the behaviour of a Python loop that may raise). -/
def mapE {β γ : Type} (g : β → Except Err γ) : List β → Except Err (List γ)
  | [] => .ok []
  | x :: xs =>
    match g x with
    | .error e => .error e
    | .ok y =>
      match mapE g xs with
      | .error e => .error e
      | .ok ys => .ok (y :: ys)

/-- Effectful map over `Option`: apply `g` to each element in order, `none`
as soon as one application yields `none`. -/
def mapO {β γ : Type} (g : β → Option γ) : List β → Option (List γ)
  | [] => some []
  | x :: xs =>
    match g x with
    | none => none
    | some y =>
      match mapO g xs with
      | none => none
      | some ys => some (y :: ys)

/-- Helper of `pyTranspose`: walk the first row, pairing each of its elements
with the heads of the remaining rows, stopping as soon as any row runs out. -/
def pyTransposeGo {β : Type} : List β → List (List β) → List (List β)
  | [], _ => []
  | a :: xs, rest =>
    match mapO List.head? rest with
    | none => []
    | some hs => (a :: hs) :: pyTransposeGo xs (rest.map List.tail)

/-- Python `zip(*rows)`: transpose truncated to the shortest row (empty when
there are no rows). -/
def pyTranspose {β : Type} : List (List β) → List (List β)
  | [] => []
  | r :: rest => pyTransposeGo r rest

/-- Python `zip(*results)` applied to a node function's return value in the
multi-output base case of `recurse_levels`: the result must be a sequence of
sequences; the transposed tuples are themselves sequences. -/
def pyZipStar {α : Type} (results : V α) : Except Err (List (V α)) :=
  match asSeq results with
  | .error e => .error e
  | .ok rows =>
    match mapE asSeq rows with
    | .error e => .error e
    | .ok cols => .ok ((pyTranspose cols).map V.seq)

/-- The sequential `for out_tree, l, result in zip(out_trees, out_levels,
results): if out_tree: out_tree.assign(l, result)` loop of the multi-output
base case (execution.py lines 226-228); entries beyond the zip truncation are
left unchanged. -/
def assignMany {α : Type} :
    List (Option (SvDataTree α)) → List Nat → List (V α) →
      Except Err (List (Option (SvDataTree α)))
  | [], _, _ => .ok []
  | ots, [], _ => .ok ots
  | ots, _, [] => .ok ots
  | ot :: ots, l :: ls, r :: rs =>
    match ot with
    | some _ =>
      match assignTree l r with
      | .error e => .error e
      | .ok t2 =>
        match assignMany ots ls rs with
        | .error e => .error e
        | .ok rest => .ok (some t2 :: rest)
    | none =>
      match assignMany ots ls rs with
      | .error e => .error e
      | .ok rest => .ok (none :: rest)

/-- Base case of `recurse_levels` (execution.py lines 211-232) after the node
function returned `results`: single-output assignment, multi-output
assignment with transposition when some declared output level is positive, or
no write at all. -/
def base_assign {α : Type} (results : V α) (out_levels : List Nat)
    (out_trees : List (Option (SvDataTree α))) :
    Except Err (List (Option (SvDataTree α))) :=
  if out_trees.length > 1 then
    match
      (if out_levels.any (fun l => 0 < l) then pyZipStar results
       else asSeq results) with
    | .error e => .error e
    | .ok rs => assignMany out_trees out_levels rs
  else
    match out_trees with
    | [some _] =>
      match out_levels with
      | [] => .error .indexError
      | l :: _ =>
        match assignTree l results with
        | .error e => .error e
        | .ok t => .ok [some t]
    | ots => .ok ots

/-- Argument construction of the base case (execution.py lines 216-221): a
level-0 container passes its payload, any deeper container passes the list of
its children's payloads. -/
def base_args {α : Type} (in_trees : List (SvDataTree α)) : List (V α) :=
  in_trees.map (fun t => if t.level == 0 then t.data else list_data t)

/-- Guard of the base case (execution.py line 211): every input container's
actual level equals its parameter's declared level (zip truncation included). -/
def allMatch {α : Type} (in_trees : List (SvDataTree α)) (in_levels : List Nat) :
    Bool :=
  (in_trees.zip in_levels).all (fun p => p.1.level == p.2)

/-- Broadcast-axis selection of the recursive case (execution.py lines
236-241): an input whose actual level differs from its declared level exposes
its child sequence, an input at its declared level is marked constant. -/
def inner_of {α : Type} (t : SvDataTree α) (l : Nat) :
    Option (List (SvDataTree α)) :=
  if t.level == l then none else some t.children

/-- Iteration bound of the recursive case (execution.py lines 235-239):
the maximum child count among broadcast-axis inputs, at least 1. -/
def max_length {α : Type} (inner : List (Option (List (SvDataTree α)))) : Nat :=
  inner.foldl
    (fun m o =>
      match o with
      | some cs => max cs.length m
      | none => m)
    1

/-- Per-iteration argument selection (execution.py lines 245-252): a constant
input is passed whole, a broadcast-axis input contributes child `i`, clamped
to its last child; the last child of an empty child list raises IndexError. -/
def pick_arg {α : Type} (t : SvDataTree α) (inner : Option (List (SvDataTree α)))
    (i : Nat) : Except Err (SvDataTree α) :=
  match inner with
  | none => .ok t
  | some it =>
    match it.get? i with
    | some c => .ok c
    | none =>
      match it.getLast? with
      | some c => .ok c
      | none => .error .indexError

/-- Arguments of the sub-call at iteration `i` of the recursive case. -/
def build_args {α : Type} (in_trees : List (SvDataTree α))
    (inner : List (Option (List (SvDataTree α)))) (i : Nat) :
    Except Err (List (SvDataTree α)) :=
  mapE (fun p => pick_arg p.1 p.2 i) (in_trees.zip inner)

/-- Fresh child containers appended by `add_child` for each connected output
before a sub-call (execution.py lines 254-259). -/
def add_children {α : Type} (outs : List (Option (SvDataTree α))) :
    List (Option (SvDataTree α)) :=
  outs.map (fun o => o.map (fun _ => (SvDataTree.mk V.vnone [] : SvDataTree α)))

/-- Child container written for output `j` by one sub-call. -/
def get_child {α : Type} (res : List (Option (SvDataTree α))) (j : Nat) :
    SvDataTree α :=
  match res.get? j with
  | some (some t) => t
  | _ => .mk V.vnone []

/-- After all iterations, each connected output receives the per-iteration
child containers appended to its child sequence. -/
def attach_children {α : Type} (outs : List (Option (SvDataTree α)))
    (subs : List (List (Option (SvDataTree α)))) :
    List (Option (SvDataTree α)) :=
  (outs.enum).map
    (fun p =>
      p.2.map (fun t => SvDataTree.mk t.data
        (t.children ++ subs.map (fun s => get_child s p.1))))

/-- Iteration loop `for i in range(max_length)` of the recursive case
(execution.py lines 243-262), collecting the child containers written by each
sub-call; `sub` performs one recursive engine call on the selected arguments. -/
def rl_loop {α : Type}
    (sub : List (SvDataTree α) →
      Except Err (List (Option (SvDataTree α))) × List Ev)
    (in_trees : List (SvDataTree α))
    (inner : List (Option (List (SvDataTree α)))) :
    List Nat → Except Err (List (List (Option (SvDataTree α)))) × List Ev
  | [] => (.ok [], [])
  | i :: is_ =>
    match build_args in_trees inner i with
    | .error e => (.error e, [])
    | .ok args =>
      match sub args with
      | (.error e, tr) => (.error e, tr)
      | (.ok s, tr) =>
        match rl_loop sub in_trees inner is_ with
        | (.error e, tr2) => (.error e, tr ++ tr2)
        | (.ok subs, tr2) => (.ok (s :: subs), tr ++ tr2)

/-- The level-matching execution engine `recurse_levels` (execution.py lines
205-262), with explicit fuel for the Python recursion and an event trace
recording each invocation of the node function `f`. -/
def recurse_levels {α : Type} (f : List (V α) → V α) :
    Nat → List Nat → List Nat → List (SvDataTree α) →
      List (Option (SvDataTree α)) →
      Except Err (List (Option (SvDataTree α))) × List Ev
  | 0, _, _, _, _ => (.error .outOfFuel, [])
  | fuel + 1, in_levels, out_levels, in_trees, out_trees =>
    if allMatch in_trees in_levels then
      let results := f (base_args in_trees)
      (base_assign results out_levels out_trees, [Ev.call])
    else
      let inner := List.zipWith inner_of in_trees in_levels
      match rl_loop
          (fun args => recurse_levels f fuel in_levels out_levels args
            (add_children out_trees))
          in_trees inner (List.range (max_length inner)) with
      | (.error e, tr) => (.error e, tr)
      | (.ok subs, tr) => (.ok (attach_children out_trees subs), tr)

/-!  Scheduler: `topo_sort` (execution.py lines 100-115).  The Python weight
dictionary (a `defaultdict` with default -1) is modelled as an association
list in insertion order; since every stored weight is non-negative, the -1
default is equivalent to absence.  The unbounded Python recursion of `visit`
is modelled with explicit fuel: a `none` result for every fuel value is the
embedding of non-termination. -/

/-- Lookup in the weight dictionary. -/
def lookupW {ν : Type} [DecidableEq ν] : List (ν × Nat) → ν → Option Nat
  | [], _ => none
  | p :: ps, n => if p.1 = n then some p.2 else lookupW ps n

/-- In-place update of a present key, append of an absent one — Python dict
assignment, which keeps the insertion order of existing keys. -/
def updateW {ν : Type} [DecidableEq ν] : List (ν × Nat) → ν → Nat → List (ν × Nat)
  | [], n, w => [(n, w)]
  | p :: ps, n, w => if p.1 = n then (n, w) :: ps else p :: updateW ps n w

/-- The statement `weights[node] = max(weight, weights[node])` of `visit`
(execution.py line 109), with the defaultdict default -1 for absent keys. -/
def bumpW {ν : Type} [DecidableEq ν] (ws : List (ν × Nat)) (n : ν) (w : Nat) :
    List (ν × Nat) :=
  match lookupW ws n with
  | none => updateW ws n w
  | some o => updateW ws n (max w o)

/-- Sequential visit of a list of nodes (the `for from_node in links[node]`
loop, and the `for start in starts` loop); `vis` performs one recursive
`visit` on a node and the current weight dictionary. -/
def visitList {ν : Type}
    (vis : ν → List (ν × Nat) → Option (List (ν × Nat))) :
    List ν → List (ν × Nat) → Option (List (ν × Nat))
  | [], ws => some ws
  | v :: vs, ws =>
    match vis v ws with
    | none => none
    | some ws2 => visitList vis vs ws2

/-- The recursive `visit(node, weight)` of `topo_sort` (execution.py lines
108-111): bump the node's weight, then visit every producer with weight + 1;
fuel models the unbounded Python recursion. -/
def visit {ν : Type} [DecidableEq ν] (links : ν → List ν) :
    Nat → ν → Nat → List (ν × Nat) → Option (List (ν × Nat))
  | 0, _, _, _ => none
  | fuel + 1, n, w, ws =>
    visitList (fun v ws2 => visit links fuel v (w + 1) ws2) (links n)
      (bumpW ws n w)

/-- Insertion into a list sorted by descending weight (second components). -/
def insertDesc {ν : Type} (p : ν × Nat) : List (ν × Nat) → List (ν × Nat)
  | [] => [p]
  | q :: qs => if p.2 ≤ q.2 then q :: insertDesc p qs else p :: q :: qs

/-- Sort by descending weight — the model of
`sorted(weights.keys(), key=lambda n: -weights[n])` (execution.py line 115). -/
def sortDesc {ν : Type} : List (ν × Nat) → List (ν × Nat)
  | [] => []
  | p :: ps => insertDesc p (sortDesc ps)

/-- The scheduler `topo_sort(links, starts)` (execution.py lines 100-115):
depth-first visits from every start at weight 0, then the visited nodes in
order of descending weight. -/
def topo_sort {ν : Type} [DecidableEq ν] (links : ν → List ν) (starts : List ν)
    (fuel : Nat) : Option (List ν) :=
  (visitList (fun s ws => visit links fuel s 0 ws) starts []).map
    (fun ws => (sortDesc ws).map (fun p => p.1))

/-- Backward paths of the dependency adjacency: `Dist links u x d` holds when
there is a chain of `d` producer edges from `u` to `x` (each node's producers
are `links` of it). -/
inductive Dist {ν : Type} (links : ν → List ν) : ν → ν → Nat → Prop where
  | refl (n : ν) : Dist links n n 0
  | step {n v x : ν} {d : Nat} : v ∈ links n → Dist links v x d →
      Dist links n x (d + 1)

/-- Backward paths with their intermediate nodes: `PathL links n l x` holds
when `l` is the list of nodes stepped through from `n` to `x` (so the path
has `l.length` edges). -/
inductive PathL {ν : Type} (links : ν → List ν) : ν → List ν → ν → Prop where
  | nil (n : ν) : PathL links n [] n
  | cons {n v x : ν} {l : List ν} : v ∈ links n → PathL links v l x →
      PathL links n (v :: l) x

/-- Keys of a weight dictionary, in insertion order. -/
def keysW {ν : Type} (ws : List (ν × Nat)) : List ν := ws.map (fun p => p.1)

/-- Pointwise domination of weight dictionaries: every recorded weight is
still recorded, not smaller. -/
def wle {ν : Type} [DecidableEq ν] (ws ws2 : List (ν × Nat)) : Prop :=
  ∀ n m, lookupW ws n = some m → ∃ m2, lookupW ws2 n = some m2 ∧ m ≤ m2

/-- Position of the first occurrence of an element in a list. -/
def idxOf {ν : Type} [DecidableEq ν] (x : ν) : List ν → Nat
  | [] => 0
  | y :: ys => if y = x then 0 else idxOf x ys + 1

/-- All nodes that occur as a producer of some consumer in a finite edge
list. -/
def targetsOf {ν : Type} (L : List (ν × List ν)) : List ν :=
  (L.map (fun p => p.2)).flatten

/-!  Graph preprocessor: `filter_reroute`, `verify_links` and `DAG`
(execution.py lines 118-202). -/

/-- Node identifiers of the raw graph; virtual adapter nodes receive fresh
identifiers. -/
abbrev NId := Nat

/-- A socket reference: owning node, socket index, and whether it is an
output socket. -/
structure RSocket where
  node : NId
  index : Nat
  is_output : Bool
deriving DecidableEq, Repr

/-- A link of the raw graph (`from_node` / `to_node` are derived from the
sockets, as in the Blender data model). -/
structure RLink where
  from_socket : RSocket
  to_socket : RSocket
  is_valid : Bool
deriving DecidableEq, Repr

/-- Producer node of a link. -/
def RLink.from_node (l : RLink) : NId := l.from_socket.node

/-- Consumer node of a link. -/
def RLink.to_node (l : RLink) : NId := l.to_socket.node

/-- Compiled function signature of a node, as consumed by `verify_links` and
`exec_node_group` (node_base.py): `parameters` entries are
(socket-index-or-property-name, level, type), `returns` entries are
(type, level). -/
structure FuncSig where
  parameters : List ((Nat ⊕ String) × Nat × String)
  returns : List (String × Nat)

/-- The raw node graph with the introspection capabilities the core consumes:
links, node kind names, reroute resolution, node compilation, and the first
unused node id for synthesized virtual nodes.  `other` is modelled from the
spec: for the input socket of a consumer behind a reroute it yields the
resolved upstream producer socket (spec section 4.1 step 2); the socket
implementation is not part of the sources. -/
structure NodeGraph where
  links : List RLink
  idname : NId → String
  other : RSocket → RSocket
  compile : NId → FuncSig
  fresh : NId

/-- The validity gate and reroute elimination `filter_reroute` (execution.py
lines 118-130).  The Python loop returns the empty list as soon as it meets
an invalid link, discarding everything collected so far, so the result is
empty exactly when some link is invalid; otherwise reroute-consuming links
are dropped and reroute-producing links are replaced by virtual links from
the resolved upstream socket. -/
def filter_reroute (ng : NodeGraph) : List RLink :=
  if ng.links.any (fun l => !l.is_valid) then []
  else
    ng.links.filterMap (fun l =>
      if ng.idname l.to_node = "NodeReroute" then none
      else if ng.idname l.from_node = "NodeReroute" then
        some { from_socket := ng.other l.to_socket, to_socket := l.to_socket,
               is_valid := true }
      else some l)

/-- An adapter descriptor returned by the type-conversion registry
(`get_conversion`): the adapter function, the adapter input socket indices to
feed, and the adapter output socket index that replaces the producer. -/
structure ConvDesc where
  cfunc : FuncSig
  to_index : List Nat
  from_index : Nat

/-- The external Type-Conversion Registry (svrx.core.type_conversion is an
external collaborator of the modelled core). -/
structure Registry where
  needs : String → Option String → Bool
  conv : String → Option String → ConvDesc

/-- Declared parameter type for a socket index: the Python loop keeps the
last parameter whose source is that socket index, `None` when there is none
(execution.py lines 145-149). -/
def to_type_of (f : FuncSig) (socket_index : Nat) : Option String :=
  f.parameters.foldl
    (fun acc p => if p.1 = Sum.inl socket_index then some p.2.2 else acc) none

/-- Declared return type of a producer socket (execution.py line 143); the
socket index is assumed in range of the compiled returns list. -/
def from_type_of (f : FuncSig) (idx : Nat) : String :=
  (f.returns.getD idx ("", 0)).1

/-- Virtual links spliced in for one adapter node with fresh id `fresh`
(execution.py lines 163-168): one link from the original producer into each
listed adapter input, then one link from the selected adapter output to the
original consumer socket. -/
def conv_links (l : RLink) (fresh : NId) (cd : ConvDesc) : List RLink :=
  cd.to_index.map
      (fun idx =>
        { from_socket := l.from_socket,
          to_socket := { node := fresh, index := idx, is_output := false },
          is_valid := true }) ++
    [{ from_socket := { node := fresh, index := cd.from_index, is_output := true },
       to_socket := l.to_socket, is_valid := true }]

/-- State of the first `verify_links` scan: appended virtual links, indices
of superseded original links, next fresh virtual-node id. -/
structure VerifySt where
  extra : List RLink
  skip : List Nat
  fresh : NId

/-- First phase of `verify_links` (execution.py lines 134-168, virtual-node
mode): scan the original links, and for every type-mismatched one record its
index as skipped and splice in an adapter.  The memoising `nodes` dictionary
of the Python code only caches `compile`, which the spec requires to be
deterministic, so it is dropped from the model. -/
def verify_scan (reg : Registry) (ng : NodeGraph) (links : List RLink) :
    VerifySt :=
  links.enum.foldl
    (fun st p =>
      let l := p.2
      let from_type := from_type_of (ng.compile l.from_node) l.from_socket.index
      let to_type := to_type_of (ng.compile l.to_node) l.to_socket.index
      if reg.needs from_type to_type then
        { extra := st.extra ++ conv_links l st.fresh (reg.conv from_type to_type),
          skip := st.skip ++ [p.1],
          fresh := st.fresh + 1 }
      else st)
    { extra := [], skip := [], fresh := ng.fresh }

/-- Second phase of `verify_links` (execution.py lines 171-179): every link —
original or spliced — that is not superseded contributes a dependency edge
(consumer, producer) and a resolved socket pair (consumer socket, producer
socket). -/
def verify_links (reg : Registry) (ng : NodeGraph) (links : List RLink) :
    List (NId × NId) × List (RSocket × RSocket) :=
  let st := verify_scan reg ng links
  let kept := ((links ++ st.extra).enum).filter (fun p => !st.skip.contains p.1)
  (kept.map (fun p => (p.2.to_node, p.2.from_node)),
   kept.map (fun p => (p.2.to_socket, p.2.from_socket)))

/-- The `defaultdict(list)` adjacency `real_links`: producers of a consumer
node, in link order. -/
def adjacency (edges : List (NId × NId)) : NId → List NId :=
  fun n => (edges.filter (fun e => e.1 = n)).map (fun e => e.2)

/-- Deduplication keeping the first occurrence — iteration order of the
Python dict keys. -/
def firstDedup {ν : Type} [DecidableEq ν] : List ν → List ν
  | [] => []
  | a :: l => a :: firstDedup (l.filter (fun b => b ≠ a))
termination_by l => l.length
decreasing_by
  simp only [List.length_cons]
  exact Nat.lt_succ_of_le (List.length_filter_le _ _)

/-- The preprocessor `DAG` (execution.py lines 182-202): validity gate and
reroute elimination, type reconciliation, then the topological schedule from
the sink nodes (consumers that are nobody's producer). -/
def DAG (reg : Registry) (ng : NodeGraph) (fuel : Nat) : Option (List NId) :=
  let links := filter_reroute ng
  let edges := (verify_links reg ng links).1
  let from_nodes := edges.map (fun e => e.2)
  let starts := (firstDedup (edges.map (fun e => e.1))).filter
    (fun n => !from_nodes.contains n)
  topo_sort (adjacency edges) starts fuel

/-!  Result cache: `SvTreeDB` (execution.py lines 30-55).  Containers are
identified by allocation number so that instance identity is observable; the
stored number plays the role of the `SvDataTree` object created at first
reference. -/

/-- Association-list lookup (Python dict read). -/
def alookup {κ β : Type} [DecidableEq κ] : List (κ × β) → κ → Option β
  | [], _ => none
  | p :: ps, k => if p.1 = k then some p.2 else alookup ps k

/-- Association-list write (Python dict assignment): in-place update of a
present key, append of an absent one. -/
def aset {κ β : Type} [DecidableEq κ] : List (κ × β) → κ → β → List (κ × β)
  | [], k, v => [(k, v)]
  | p :: ps, k, v => if p.1 = k then (k, v) :: ps else p :: aset ps k v

/-- The per-run result cache `SvTreeDB`: per graph name, a dictionary from
output socket to the allocation number of its container; `next_id` is the
next fresh allocation number. -/
structure SvTreeDB (σ : Type) where
  data_trees : List (String × List (σ × Nat))
  next_id : Nat

/-- The lookup `SvTreeDB.get(socket)` (execution.py lines 41-49): return the
socket's existing container, creating the graph entry and a fresh empty
container only when absent.  `ng_id` is `socket.id_data.name`. -/
def SvTreeDB.get {σ : Type} [DecidableEq σ] (db : SvTreeDB σ) (ng_id : String)
    (s : σ) : Nat × SvTreeDB σ :=
  let ng_trees := (alookup db.data_trees ng_id).getD []
  match alookup ng_trees s with
  | some t => (t, db)
  | none =>
    (db.next_id,
     { data_trees := aset db.data_trees ng_id (ng_trees ++ [(s, db.next_id)]),
       next_id := db.next_id + 1 })

/-- The reset `SvTreeDB.clean(ng)` (execution.py lines 51-53). -/
def SvTreeDB.clean {σ : Type} [DecidableEq σ] (db : SvTreeDB σ) (ng_id : String) :
    SvTreeDB σ :=
  { db with data_trees := aset db.data_trees ng_id [] }

/-- Container entry of a socket, if any. -/
def SvTreeDB.lookupTree {σ : Type} [DecidableEq σ] (db : SvTreeDB σ)
    (ng_id : String) (s : σ) : Option Nat :=
  alookup ((alookup db.data_trees ng_id).getD []) s

/-!  Execution driver, per-node part of `exec_node_group` (execution.py lines
294-343). -/

/-- The linkage state the driver reads off an input socket. -/
structure InSock where
  is_linked : Bool
  required : Bool
deriving DecidableEq, Repr

/-- The evaluation context of one scheduled node: node name, its input
sockets, their default payloads, its property values, and the cached upstream
container of each linked input socket
(`data_trees.get(socket_links[socket])`). -/
structure NodeCtx (α : Type) where
  name : String
  inputs : Nat → InSock
  defaults : Nat → V α
  props : String → V α
  linked : Nat → SvDataTree α

/-- The compiled Function Descriptor the driver executes. -/
structure FuncDesc (α : Type) where
  parameters : List ((Nat ⊕ String) × Nat × String)
  returns : List (String × Nat)
  stateful : Bool
  impl : List (V α) → V α

/-- Modelled from the spec: `SvDataTree(socket)` and
`SvDataTree(node=node, prop=param)` of the missing data_tree.py construct a
level-0 container holding the socket's declared default payload, respectively
the property's current value (spec sections 4.3 and 4.5). -/
def default_tree {α : Type} (v : V α) : SvDataTree α := .mk v []

/-- Input resolution of `exec_node_group` (execution.py lines 305-322):
declared levels, one container per parameter, and the console warnings (the
Python `print("Warning Required socket not connected", node.name)`) emitted
for required sockets with no connection — which are then resolved exactly
like non-required ones. -/
def resolve_inputs {α : Type} (ctx : NodeCtx α) :
    List ((Nat ⊕ String) × Nat × String) →
      List Nat × List (SvDataTree α) × List String
  | [] => ([], [], [])
  | (p, level, _) :: rest =>
    let r := resolve_inputs ctx rest
    match p with
    | .inl idx =>
      let s := ctx.inputs idx
      if s.is_linked then
        (level :: r.1, ctx.linked idx :: r.2.1, r.2.2)
      else if s.required then
        (level :: r.1, default_tree (ctx.defaults idx) :: r.2.1,
         ctx.name :: r.2.2)
      else
        (level :: r.1, default_tree (ctx.defaults idx) :: r.2.1, r.2.2)
    | .inr prop =>
      (level :: r.1, default_tree (ctx.props prop) :: r.2.1, r.2.2)

/-- Outcome of executing one scheduled node: engine result, event trace
(stateful hooks and node-function invocations, in order), and console
warnings. -/
structure ExecRes (α : Type) where
  res : Except Err (List (Option (SvDataTree α)))
  trace : List Ev
  warns : List String

/-- Per-node execution of `exec_node_group` (execution.py lines 294-343):
resolve inputs, fire the `start` hook when the descriptor is stateful, run
the level-matching engine, and fire the `stop` hook only when the engine
returned normally — the Python code has no try/finally, so an exception
raised inside `recurse_levels` propagates and `func.stop()` is skipped.
The optional timing wrapper `time_func` calls the function exactly once per
engine invocation, so it is semantically transparent and omitted. -/
def exec_node {α : Type} (ctx : NodeCtx α) (fd : FuncDesc α)
    (out_trees : List (Option (SvDataTree α))) (fuel : Nat) : ExecRes α :=
  let r := resolve_inputs ctx fd.parameters
  let out_levels := fd.returns.map (fun q => q.2)
  let e := recurse_levels fd.impl fuel r.1 out_levels r.2.1 out_trees
  { res := e.1,
    trace :=
      (if fd.stateful then [Ev.start] else []) ++ e.2 ++
        (match e.1 with
         | .ok _ => if fd.stateful then [Ev.stop] else []
         | .error _ => []),
    warns := r.2.2 }

/-!  Concrete instances used by witnesses and counterexamples. -/

/-- Binary addition as a node function: level-0 x level-0 -> level-0
summation. -/
def addNat : List (V Nat) → V Nat
  | [V.atom a, V.atom b] => V.atom (a + b)
  | _ => V.vnone

/-- Level-0 container holding the payload `n`. -/
def leafN (n : Nat) : SvDataTree Nat := .mk (V.atom n) []

/-- Level-1 input container with child payloads 1, 2, 3. -/
def treeA : SvDataTree Nat := .mk V.vnone [leafN 1, leafN 2, leafN 3]

/-- Level-1 input container with child payloads 10, 20. -/
def treeB : SvDataTree Nat := .mk V.vnone [leafN 10, leafN 20]

/-- A fresh empty output container. -/
def emptyT : SvDataTree Nat := .mk V.vnone []

/-- Node context with a single required, unconnected input socket whose
declared default payload is 5. -/
def ctxReq : NodeCtx Nat :=
  { name := "NodeA",
    inputs := fun _ => { is_linked := false, required := true },
    defaults := fun _ => V.atom 5,
    props := fun _ => V.vnone,
    linked := fun _ => .mk V.vnone [] }

/-- Function descriptor with one required level-0 socket parameter and one
level-0 return, whose implementation passes its first argument through. -/
def fdId : FuncDesc Nat :=
  { parameters := [(Sum.inl 0, 0, "Number")],
    returns := [("Number", 0)],
    stateful := false,
    impl := fun args => args.headD V.vnone }

/-- Node context whose two input sockets are linked to the level-1 containers
`treeA` and `treeB`. -/
def ctxAB : NodeCtx Nat :=
  { name := "NodeAdd",
    inputs := fun _ => { is_linked := true, required := false },
    defaults := fun _ => V.vnone,
    props := fun _ => V.vnone,
    linked := fun i => if i = 0 then treeA else treeB }

/-- Stateful function descriptor: two level-0 socket parameters, one level-0
return, summation implementation. -/
def fdAddStateful : FuncDesc Nat :=
  { parameters := [(Sum.inl 0, 0, "Number"), (Sum.inl 1, 0, "Number")],
    returns := [("Number", 0)],
    stateful := true,
    impl := addNat }

/-- Node context whose single input socket is linked to a level-0 (childless)
container. -/
def ctxLeaf : NodeCtx Nat :=
  { name := "NodeS",
    inputs := fun _ => { is_linked := true, required := false },
    defaults := fun _ => V.vnone,
    props := fun _ => V.vnone,
    linked := fun _ => .mk V.vnone [] }

/-- Stateful function descriptor declaring one level-1 socket parameter, so
that a level-0 actual input makes the engine raise IndexError. -/
def fdStatefulL1 : FuncDesc Nat :=
  { parameters := [(Sum.inl 0, 1, "Number")],
    returns := [("Number", 0)],
    stateful := true,
    impl := fun _ => V.vnone }

/-- Diamond-with-tail dependency adjacency: node 3 consumes 1 and 2, node 1
consumes 0, node 2 consumes 4, node 4 consumes 0 — so 0 is reachable from the
start 3 along paths of lengths 2 and 3. -/
def dLinks : Nat → List Nat
  | 3 => [1, 2]
  | 1 => [0]
  | 2 => [4]
  | 4 => [0]
  | _ => []

/-- A one-node self-loop adjacency: node 1 is its own producer. -/
def cycLinks : Nat → List Nat
  | 1 => [1]
  | _ => []

/-- Finite acyclic edge list: node 1 consumes node 0. -/
def acyL : List (Nat × List Nat) := [(1, [0])]

/-- Adjacency function of a finite edge list, with no producers for absent
nodes (the `defaultdict(list)` behaviour). -/
def linksOf {ν : Type} [DecidableEq ν] (L : List (ν × List ν)) : ν → List ν :=
  fun n => (alookup L n).getD []

/-- Raw graph with a single invalid link between nodes 0 and 1. -/
def ngInvalid : NodeGraph :=
  { links := [{ from_socket := { node := 0, index := 0, is_output := true },
                to_socket := { node := 1, index := 0, is_output := false },
                is_valid := false }],
    idname := fun _ => "SvRxNodeX",
    other := fun s => s,
    compile := fun _ => { parameters := [], returns := [] },
    fresh := 2 }

/-- Trivial type-conversion registry: no conversion is ever needed. -/
def regNone : Registry :=
  { needs := fun _ _ => false,
    conv := fun _ _ => { cfunc := { parameters := [], returns := [] },
                         to_index := [], from_index := 0 } }

/-!  Helper lemmas about association lists. -/

theorem alookup_append_some {κ β : Type} [DecidableEq κ] {l1 : List (κ × β)}
    (l2 : List (κ × β)) {k : κ} {v : β} (h : alookup l1 k = some v) :
    alookup (l1 ++ l2) k = some v := by
  induction l1 with
  | nil => simp [alookup] at h
  | cons p ps ih =>
    by_cases hp : p.1 = k
    · simp [alookup, hp] at h ⊢; exact h
    · simp [alookup, hp] at h ⊢; exact ih h

theorem alookup_append_none {κ β : Type} [DecidableEq κ] {l1 : List (κ × β)}
    (l2 : List (κ × β)) {k : κ} (h : alookup l1 k = none) :
    alookup (l1 ++ l2) k = alookup l2 k := by
  induction l1 with
  | nil => simp
  | cons p ps ih =>
    by_cases hp : p.1 = k
    · simp [alookup, hp] at h
    · simp [alookup, hp] at h ⊢; exact ih h

theorem alookup_aset_self {κ β : Type} [DecidableEq κ] (l : List (κ × β))
    (k : κ) (v : β) : alookup (aset l k v) k = some v := by
  induction l with
  | nil => simp [aset, alookup]
  | cons p ps ih =>
    by_cases hp : p.1 = k
    · simp [aset, hp, alookup]
    · simp [aset, hp, alookup, ih]

theorem alookup_aset_ne {κ β : Type} [DecidableEq κ] (l : List (κ × β))
    {k k2 : κ} (v : β) (h : k ≠ k2) :
    alookup (aset l k v) k2 = alookup l k2 := by
  induction l with
  | nil => simp [aset, alookup, h]
  | cons p ps ih =>
    by_cases hp : p.1 = k
    · simp [aset, hp, alookup, h, hp ▸ h]
    · simp [aset, hp, alookup, ih]

/-- C6: within one run, every `get` with the same output socket returns the
very same container instance (modelled by its allocation number), creating
one only on the first call: after a `get` the entry is present and points at
the returned container; a `get` on a present entry returns it and leaves the
cache untouched; a `get` on an absent entry returns the fresh container; and
a `get` on a different socket never disturbs the entry, so an output socket
with several consumers always reads the one shared container. -/
theorem svtreedb_get_shared {σ : Type} [DecidableEq σ] (db : SvTreeDB σ)
    (ng_id : String) (s s2 : σ) :
    (db.get ng_id s).2.lookupTree ng_id s = some (db.get ng_id s).1 ∧
    (∀ t, db.lookupTree ng_id s = some t → db.get ng_id s = (t, db)) ∧
    (db.lookupTree ng_id s = none → (db.get ng_id s).1 = db.next_id) ∧
    (s ≠ s2 →
      (db.get ng_id s2).2.lookupTree ng_id s = db.lookupTree ng_id s) := by
  refine ⟨?_, ?_, ?_, ?_⟩
  · unfold SvTreeDB.get SvTreeDB.lookupTree
    cases h : alookup ((alookup db.data_trees ng_id).getD []) s with
    | some t => simp [h]
    | none =>
      simp only [h]
      simp only [alookup_aset_self, Option.getD_some]
      rw [alookup_append_none _ h]
      simp [alookup]
  · intro t ht
    unfold SvTreeDB.lookupTree at ht
    unfold SvTreeDB.get
    simp [ht]
  · intro ht
    unfold SvTreeDB.lookupTree at ht
    unfold SvTreeDB.get
    simp [ht]
  · intro hne
    unfold SvTreeDB.get SvTreeDB.lookupTree
    cases h : alookup ((alookup db.data_trees ng_id).getD []) s2 with
    | some t => simp [h]
    | none =>
      simp only [h]
      simp only [alookup_aset_self, Option.getD_some]
      cases hs : alookup ((alookup db.data_trees ng_id).getD []) s with
      | some t => simp [alookup_append_some _ hs, hs]
      | none =>
        rw [alookup_append_none _ hs]
        simp [alookup, Ne.symm hne, hs]

/-- Witness for C6 at a concrete cache state: a second `get` of socket 0
returns the container created by the first `get` and leaves the cache
unchanged. -/
theorem svtreedb_get_shared_witness :
    (((SvTreeDB.mk [] 0 : SvTreeDB Nat).get "g" 0).2).get "g" 0 =
      ((((SvTreeDB.mk [] 0 : SvTreeDB Nat).get "g" 0)).1,
        (((SvTreeDB.mk [] 0 : SvTreeDB Nat).get "g" 0)).2) :=
  (svtreedb_get_shared (((SvTreeDB.mk [] 0 : SvTreeDB Nat).get "g" 0).2)
    "g" 0 1).2.1 0 rfl

/-- C7: if any link of the raw graph is flagged invalid, `filter_reroute`
discards the whole link list, the preprocessor's dependency adjacency is
empty, and the schedule produced by `DAG` is empty — no node is executed,
rather than executing the valid portion of the graph. -/
theorem validity_gate (reg : Registry) (ng : NodeGraph) (fuel : Nat)
    (h : ∃ l ∈ ng.links, l.is_valid = false) :
    filter_reroute ng = [] ∧
    (verify_links reg ng (filter_reroute ng)).1 = [] ∧
    DAG reg ng fuel = some [] := by
  obtain ⟨l, hl, hv⟩ := h
  have hany : ng.links.any (fun l => !l.is_valid) = true := by
    rw [List.any_eq_true]
    exact ⟨l, hl, by simp [hv]⟩
  have hfr : filter_reroute ng = [] := by
    simp [filter_reroute, hany]
  have hvl : (verify_links reg ng []).1 = [] := by
    simp [verify_links, verify_scan]
  refine ⟨hfr, by rw [hfr]; exact hvl, ?_⟩
  unfold DAG
  rw [hfr]
  simp only [hvl]
  simp [topo_sort, visitList, sortDesc, adjacency, firstDedup]

/-- Witness for C7: the concrete one-invalid-link graph yields the empty
schedule. -/
theorem validity_gate_witness : DAG regNone ngInvalid 3 = some [] :=
  (validity_gate regNone ngInvalid 3
    ⟨{ from_socket := { node := 0, index := 0, is_output := true },
       to_socket := { node := 1, index := 0, is_output := false },
       is_valid := false }, by simp [ngInvalid], rfl⟩).2.2

/-- C3: a level0 x level0 -> level0 summation applied to the level-1 inputs
[1,2,3] and [10,20] iterates three times — the maximum child count among the
broadcast-axis inputs — clamping the shorter input to its final element (20)
for every index past its length, and yields the level-1 output [11,22,23]:
no cycling and no default padding. -/
theorem broadcast_clamp_concrete :
    recurse_levels addNat 2 [0, 0] [0] [treeA, treeB] [some emptyT] =
      (.ok [some (.mk V.vnone
          [.mk (V.atom 11) [], .mk (V.atom 22) [], .mk (V.atom 23) []])],
        [Ev.call, Ev.call, Ev.call]) := rfl

/-!  Helper lemmas for the recursive case of the engine. -/

theorem allMatch_false_exists {α : Type} {in_trees : List (SvDataTree α)}
    {in_levels : List Nat} (h : allMatch in_trees in_levels = false) :
    ∃ p ∈ in_trees.zip in_levels, p.1.level ≠ p.2 := by
  unfold allMatch at h
  rw [List.all_eq_false] at h
  obtain ⟨p, hp, hne⟩ := h
  exact ⟨p, hp, by simpa using hne⟩

theorem max_length_all_empty {α : Type}
    {inner : List (Option (List (SvDataTree α)))}
    (h : ∀ o ∈ inner, o = none ∨ o = some []) : max_length inner = 1 := by
  unfold max_length
  suffices hgen : ∀ acc : Nat, inner.foldl
      (fun m o =>
        match o with
        | some cs => max cs.length m
        | none => m) acc = acc from hgen 1
  induction inner with
  | nil => intro acc; rfl
  | cons o os ih =>
    intro acc
    rcases h o (by simp) with ho | ho <;>
      simp [ho, ih (fun x hx => h x (by simp [hx]))]

theorem mapE_all_err {β γ : Type} {g : β → Except Err γ} {l : List β} {e : Err}
    (hall : ∀ x ∈ l, (∃ y, g x = .ok y) ∨ g x = .error e)
    (hex : ∃ x ∈ l, g x = .error e) : mapE g l = .error e := by
  induction l with
  | nil => simp at hex
  | cons a t ih =>
    rcases hall a (by simp) with ⟨y, hy⟩ | hy
    · have hext : ∃ x ∈ t, g x = .error e := by
        obtain ⟨x, hx, hgx⟩ := hex
        rcases List.mem_cons.mp hx with rfl | hxt
        · rw [hy] at hgx; cases hgx
        · exact ⟨x, hxt, hgx⟩
      have := ih (fun x hx => hall x (by simp [hx])) hext
      simp [mapE, hy, this]
    · simp [mapE, hy]

theorem mem_zipWith_exists {α β γ : Type} {f : α → β → γ} :
    ∀ {l1 : List α} {l2 : List β} {c : γ}, c ∈ List.zipWith f l1 l2 →
      ∃ a b, (a, b) ∈ l1.zip l2 ∧ c = f a b := by
  intro l1
  induction l1 with
  | nil => intro l2 c hc; simp at hc
  | cons x t1 ih =>
    intro l2 c hc
    cases l2 with
    | nil => simp at hc
    | cons y t2 =>
      simp only [List.zipWith_cons_cons, List.mem_cons] at hc
      rcases hc with rfl | hc
      · exact ⟨x, y, by simp⟩
      · obtain ⟨a, b, hab, hval⟩ := ih hc
        exact ⟨a, b, by simp [hab], hval⟩

theorem zip_zipWith_mem {α β γ : Type} (f : α → β → γ) :
    ∀ {l1 : List α} {l2 : List β} {p : α × γ},
      p ∈ l1.zip (List.zipWith f l1 l2) →
        ∃ b, (p.1, b) ∈ l1.zip l2 ∧ p.2 = f p.1 b := by
  intro l1
  induction l1 with
  | nil => intro l2 p hp; simp [List.zip] at hp
  | cons a t1 ih =>
    intro l2 p hp
    cases l2 with
    | nil => simp [List.zip] at hp
    | cons b t2 =>
      simp only [List.zipWith_cons_cons, List.zip_cons_cons, List.mem_cons] at hp
      rcases hp with rfl | hp
      · exact ⟨b, by simp⟩
      · obtain ⟨b2, hb2, hval⟩ := ih hp
        exact ⟨b2, by simp [hb2], hval⟩

theorem mem_zip_zipWith {α β γ : Type} (f : α → β → γ) :
    ∀ {l1 : List α} {l2 : List β} {a : α} {b : β},
      (a, b) ∈ l1.zip l2 → (a, f a b) ∈ l1.zip (List.zipWith f l1 l2) := by
  intro l1
  induction l1 with
  | nil => intro l2 a b h; simp [List.zip] at h
  | cons x t1 ih =>
    intro l2 a b h
    cases l2 with
    | nil => simp [List.zip] at h
    | cons y t2 =>
      simp only [List.zip_cons_cons, List.mem_cons] at h
      rcases h with h | h
      · cases h; simp
      · simp only [List.zipWith_cons_cons, List.zip_cons_cons, List.mem_cons]
        exact Or.inr (ih h)

/-- C10: in the recursive case, when every broadcast-axis input has zero
children, the iteration bound stays at its default of 1 and the single
iteration attempts to read the last child of an empty child list, so the
engine fails with an IndexError before the node's function is invoked even
once (empty trace); it does not produce an empty output container. -/
theorem empty_axis_index_error {α : Type} (f : List (V α) → V α) (fuel : Nat)
    (in_levels out_levels : List Nat) (in_trees : List (SvDataTree α))
    (out_trees : List (Option (SvDataTree α)))
    (hmis : allMatch in_trees in_levels = false)
    (hempty : ∀ p ∈ in_trees.zip in_levels, p.1.level ≠ p.2 →
      p.1.children = []) :
    recurse_levels f (fuel + 1) in_levels out_levels in_trees out_trees =
      (.error .indexError, []) := by
  have hinner : ∀ o ∈ List.zipWith inner_of in_trees in_levels,
      o = none ∨ o = some [] := by
    intro o ho
    obtain ⟨a, b, hab, rfl⟩ := mem_zipWith_exists ho
    by_cases hl : a.level = b
    · exact Or.inl (by simp [inner_of, hl])
    · exact Or.inr (by simp [inner_of, hl, hempty (a, b) hab hl])
  have hmax : max_length (List.zipWith inner_of in_trees in_levels) = 1 :=
    max_length_all_empty hinner
  have hargs : build_args in_trees (List.zipWith inner_of in_trees in_levels) 0 =
      .error .indexError := by
    unfold build_args
    apply mapE_all_err
    · intro x hx
      obtain ⟨b, hb, hval⟩ := zip_zipWith_mem inner_of hx
      by_cases hl : x.1.level = b
      · exact Or.inl ⟨x.1, by simp [hval, inner_of, hl, pick_arg]⟩
      · refine Or.inr ?_
        have hc : x.1.children = [] := hempty (x.1, b) hb hl
        simp [hval, inner_of, hl, hc, pick_arg]
    · obtain ⟨p, hp, hne⟩ := allMatch_false_exists hmis
      refine ⟨(p.1, inner_of p.1 p.2), mem_zip_zipWith inner_of hp, ?_⟩
      have hc : p.1.children = [] := hempty p hp hne
      simp [inner_of, hne, hc, pick_arg]
  simp only [recurse_levels, hmis, Bool.false_eq_true, if_false, hmax]
  simp [rl_loop, hargs]

/-- Witness for C10: declared level 1 against an actual level-0 (childless)
input fails with IndexError and an empty trace. -/
theorem empty_axis_index_error_witness :
    allMatch [SvDataTree.mk (V.vnone : V Nat) []] [1] = false ∧
    recurse_levels (fun _ => (V.vnone : V Nat)) 2 [1] [0]
        [SvDataTree.mk V.vnone []] [some emptyT] =
      (.error .indexError, []) :=
  ⟨rfl, empty_axis_index_error _ 1 [1] [0] _ _ rfl
    (by intro p hp _; simp at hp; subst hp; rfl)⟩

/-!  Positional helper lemmas. -/

theorem getElem?_zip {α β : Type} :
    ∀ {l1 : List α} {l2 : List β} {j : Nat} {a : α} {b : β},
      l1[j]? = some a → l2[j]? = some b →
        (l1.zip l2)[j]? = some (a, b) := by
  intro l1
  induction l1 with
  | nil => intro l2 j a b h1 _; simp at h1
  | cons x t1 ih =>
    intro l2 j a b h1 h2
    cases l2 with
    | nil => simp at h2
    | cons y t2 =>
      cases j with
      | zero => simp at h1 h2; simp [h1, h2]
      | succ j => simp at h1 h2; simpa using ih h1 h2

theorem getElem?_zipWith {α β γ : Type} {f : α → β → γ} :
    ∀ {l1 : List α} {l2 : List β} {j : Nat} {a : α} {b : β},
      l1[j]? = some a → l2[j]? = some b →
        (List.zipWith f l1 l2)[j]? = some (f a b) := by
  intro l1
  induction l1 with
  | nil => intro l2 j a b h1 _; simp at h1
  | cons x t1 ih =>
    intro l2 j a b h1 h2
    cases l2 with
    | nil => simp at h2
    | cons y t2 =>
      cases j with
      | zero => simp at h1 h2; simp [h1, h2]
      | succ j => simp at h1 h2; simpa using ih h1 h2

theorem mapE_ok_getElem? {β γ : Type} {g : β → Except Err γ} :
    ∀ {l : List β} {ys : List γ} {j : Nat} {x : β},
      mapE g l = .ok ys → l[j]? = some x →
        ∃ y, g x = .ok y ∧ ys[j]? = some y := by
  intro l
  induction l with
  | nil => intro ys j x _ hx; simp at hx
  | cons a t ih =>
    intro ys j x hm hx
    cases ha : g a with
    | error e =>
      rw [mapE, ha] at hm
      have : (Except.error e : Except Err (List γ)) = .ok ys := hm
      cases this
    | ok y =>
      cases ht : mapE g t with
      | error e =>
        rw [mapE, ha, ht] at hm
        have : (Except.error e : Except Err (List γ)) = .ok ys := hm
        cases this
      | ok zs =>
        rw [mapE, ha, ht] at hm
        have hys : (Except.ok (y :: zs) : Except Err (List γ)) = .ok ys := hm
        have hys2 : y :: zs = ys := by cases hys; rfl
        subst hys2
        cases j with
        | zero =>
          simp at hx
          subst hx
          exact ⟨y, ha, by simp⟩
        | succ j =>
          simp at hx
          obtain ⟨y2, hy2, hget⟩ := ih ht hx
          exact ⟨y2, hy2, by simpa using hget⟩

/-- C1 counterexample: an input container whose actual level (0) is below —
not above — its declared level (1) is nevertheless selected as a broadcast
axis: `inner_of` exposes its (empty) child sequence instead of holding it
constant, and the engine then fails indexing that empty child sequence
instead of passing the container whole. -/
theorem split_on_lower_level_counterexample :
    (SvDataTree.mk (V.vnone : V Nat) []).level = 0 ∧
    inner_of (SvDataTree.mk (V.vnone : V Nat) []) 1 = some [] ∧
    recurse_levels (fun _ => (V.vnone : V Nat)) 2 [1] [0]
        [SvDataTree.mk V.vnone []] [some emptyT] =
      (.error .indexError, []) :=
  ⟨rfl, rfl, rfl⟩

/-- C1 (amended): in the recursive case the engine splits every input whose
actual level differs from its declared level — in either direction — along
its child sequence, and passes every input whose actual level equals its
declared level whole, unsplit and unchanged, to each recursive sub-call. -/
theorem split_iff_level_differs {α : Type} (in_trees : List (SvDataTree α))
    (in_levels : List Nat) (i j : Nat) (t : SvDataTree α) (l : Nat)
    (ht : in_trees[j]? = some t) (hl : in_levels[j]? = some l) :
    (t.level ≠ l →
      (List.zipWith inner_of in_trees in_levels)[j]? =
        some (some t.children)) ∧
    (t.level = l → ∀ args,
      build_args in_trees (List.zipWith inner_of in_trees in_levels) i =
        .ok args → args[j]? = some t) := by
  constructor
  · intro hne
    have hz : (List.zipWith inner_of in_trees in_levels)[j]? =
        some (inner_of t l) := getElem?_zipWith ht hl
    rw [hz]
    simp [inner_of, hne]
  · intro heq args hargs
    have hz : (in_trees.zip (List.zipWith inner_of in_trees in_levels))[j]? =
        some (t, inner_of t l) := getElem?_zip ht (getElem?_zipWith ht hl)
    obtain ⟨y, hy, hget⟩ := mapE_ok_getElem? hargs hz
    have : pick_arg t (inner_of t l) i = .ok t := by
      simp [inner_of, heq, pick_arg]
    rw [this] at hy
    cases hy
    exact hget

/-- Witness for C1 (amended): a level-0 container at declared level 0 is
passed whole to the sub-call, and a level-1 container at declared level 0 is
split along its children. -/
theorem split_iff_level_differs_witness :
    (([leafN 1] : List (SvDataTree Nat))[0]? = some (leafN 1)) ∧
    (List.zipWith inner_of [treeA] [0])[0]? =
      some (some [leafN 1, leafN 2, leafN 3]) :=
  ⟨(split_iff_level_differs [leafN 1] [0] 0 0 (leafN 1) 0 rfl rfl).2 rfl
      [leafN 1] rfl,
    (split_iff_level_differs [treeA] [0] 0 0 treeA 0 rfl rfl).1 (by decide)⟩

/-!  Input resolution lemmas for the driver. -/

theorem resolve_inputs_get? {α : Type} (ctx : NodeCtx α) :
    ∀ (params : List ((Nat ⊕ String) × Nat × String)) (j : Nat)
      (p : Nat ⊕ String) (l : Nat) (ty : String),
      params[j]? = some (p, l, ty) →
      (resolve_inputs ctx params).1[j]? = some l ∧
      (resolve_inputs ctx params).2.1[j]? = some
        (match p with
         | .inl idx =>
           if (ctx.inputs idx).is_linked then ctx.linked idx
           else default_tree (ctx.defaults idx)
         | .inr prop => default_tree (ctx.props prop)) := by
  intro params
  induction params with
  | nil => intro j p l ty h; simp at h
  | cons q rest ih =>
    intro j p l ty h
    cases j with
    | zero =>
      rw [List.getElem?_cons_zero] at h
      have hq := Option.some.inj h
      subst hq
      cases p with
      | inl idx =>
        by_cases hl : (ctx.inputs idx).is_linked
        · simp [resolve_inputs, hl]
        · by_cases hr : (ctx.inputs idx).required <;>
            simp [resolve_inputs, hl, hr]
      | inr prop => simp [resolve_inputs]
    | succ j =>
      rw [List.getElem?_cons_succ] at h
      have := ih j p l ty h
      rcases q with ⟨qp, ql, qty⟩
      cases qp with
      | inl idx =>
        by_cases hl : (ctx.inputs idx).is_linked
        · simpa [resolve_inputs, hl] using this
        · by_cases hr : (ctx.inputs idx).required <;>
            simpa [resolve_inputs, hl, hr] using this
      | inr prop => simpa [resolve_inputs] using this

theorem resolve_inputs_warns {α : Type} (ctx : NodeCtx α) :
    ∀ (params : List ((Nat ⊕ String) × Nat × String)) (j : Nat)
      (idx l : Nat) (ty : String),
      params[j]? = some (.inl idx, l, ty) →
      (ctx.inputs idx).is_linked = false →
      (ctx.inputs idx).required = true →
      ctx.name ∈ (resolve_inputs ctx params).2.2 := by
  intro params
  induction params with
  | nil => intro j idx l ty h _ _; simp at h
  | cons q rest ih =>
    intro j idx l ty h hnl hrq
    cases j with
    | zero =>
      rw [List.getElem?_cons_zero] at h
      have hq := Option.some.inj h
      subst hq
      simp [resolve_inputs, hnl, hrq]
    | succ j =>
      rw [List.getElem?_cons_succ] at h
      have hmem := ih j idx l ty h hnl hrq
      rcases q with ⟨qp, ql, qty⟩
      cases qp with
      | inl idx2 =>
        by_cases hl : (ctx.inputs idx2).is_linked
        · simpa [resolve_inputs, hl] using hmem
        · by_cases hr : (ctx.inputs idx2).required
          · simp [resolve_inputs, hl, hr, hmem]
          · simpa [resolve_inputs, hl, hr] using hmem
      | inr prop => simpa [resolve_inputs] using hmem

/-- C4 counterexample: a node whose only (required) input socket has no
connection still executes — the driver returns a successful result, the node
function is invoked once (trace `[call]`), and only a console warning naming
the node is recorded; no precondition error is raised before the call. -/
theorem required_unlinked_proceeds_counterexample :
    exec_node ctxReq fdId [some emptyT] 1 =
      { res := .ok [some (.mk (V.atom 5) [])],
        trace := [Ev.call],
        warns := ["NodeA"] } := rfl

/-- C4 (amended): a required input socket with no connection produces a
console warning naming the node and resolves to a level-0 container holding
the socket's declared default — exactly like a non-required unconnected
socket — and the driver proceeds to hand the resolved containers to the
level-matching engine; the node's function is not prevented from running. -/
theorem required_unlinked_warns {α : Type} (ctx : NodeCtx α) (fd : FuncDesc α)
    (out_trees : List (Option (SvDataTree α))) (fuel : Nat) (j idx l : Nat)
    (ty : String)
    (hp : fd.parameters[j]? = some (.inl idx, l, ty))
    (hnl : (ctx.inputs idx).is_linked = false)
    (hrq : (ctx.inputs idx).required = true) :
    ctx.name ∈ (exec_node ctx fd out_trees fuel).warns ∧
    (resolve_inputs ctx fd.parameters).2.1[j]? =
      some (default_tree (ctx.defaults idx)) ∧
    (exec_node ctx fd out_trees fuel).res =
      (recurse_levels fd.impl fuel (resolve_inputs ctx fd.parameters).1
        (fd.returns.map (fun q => q.2)) (resolve_inputs ctx fd.parameters).2.1
        out_trees).1 := by
  refine ⟨?_, ?_, rfl⟩
  · exact resolve_inputs_warns ctx fd.parameters j idx l ty hp hnl hrq
  · have := (resolve_inputs_get? ctx fd.parameters j (.inl idx) l ty hp).2
    simpa [hnl] using this

/-- Witness for C4 (amended) at the concrete required-unconnected node. -/
theorem required_unlinked_warns_witness :
    "NodeA" ∈ (exec_node ctxReq fdId [some emptyT] 1).warns :=
  (required_unlinked_warns ctxReq fdId [some emptyT] 1 0 0 0 "Number"
    rfl rfl rfl).1

/-!  Trace lemmas for the stateful-hook property. -/

theorem rl_loop_trace_calls {α : Type}
    (sub : List (SvDataTree α) →
      Except Err (List (Option (SvDataTree α))) × List Ev)
    (in_trees : List (SvDataTree α))
    (inner : List (Option (List (SvDataTree α))))
    (hsub : ∀ args, ∀ e ∈ (sub args).2, e = Ev.call) :
    ∀ idxs, ∀ e ∈ (rl_loop sub in_trees inner idxs).2, e = Ev.call := by
  intro idxs
  induction idxs with
  | nil => intro e he; simp [rl_loop] at he
  | cons i is_ ih =>
    intro e he
    cases hb : build_args in_trees inner i with
    | error e2 => simp [rl_loop, hb] at he
    | ok args =>
      cases hs : sub args with
      | mk r tr =>
        cases r with
        | error e2 =>
          simp only [rl_loop, hb, hs] at he
          exact hsub args e (by rw [hs]; exact he)
        | ok s =>
          cases hrest : rl_loop sub in_trees inner is_ with
          | mk r2 tr2 =>
            have htr : e ∈ tr ++ tr2 := by
              cases r2 with
              | error e3 => simpa only [rl_loop, hb, hs, hrest] using he
              | ok subs => simpa only [rl_loop, hb, hs, hrest] using he
            rcases List.mem_append.mp htr with h | h
            · exact hsub args e (by rw [hs]; exact h)
            · exact ih e (by rw [hrest]; exact h)

theorem recurse_trace_calls {α : Type} (f : List (V α) → V α) :
    ∀ (fuel : Nat) (in_levels out_levels : List Nat)
      (in_trees : List (SvDataTree α))
      (out_trees : List (Option (SvDataTree α))),
      ∀ e ∈ (recurse_levels f fuel in_levels out_levels in_trees out_trees).2,
        e = Ev.call := by
  intro fuel
  induction fuel with
  | zero => intro _ _ _ _ e he; simp [recurse_levels] at he
  | succ fuel ih =>
    intro in_levels out_levels in_trees out_trees e he
    by_cases hm : allMatch in_trees in_levels
    · simp [recurse_levels, hm] at he; exact he
    · cases hloop : rl_loop
          (fun args => recurse_levels f fuel in_levels out_levels args
            (add_children out_trees))
          in_trees (List.zipWith inner_of in_trees in_levels)
          (List.range (max_length (List.zipWith inner_of in_trees in_levels))) with
      | mk r tr =>
        have hmem : e ∈ tr := by
          cases r with
          | error e2 =>
            simpa only [recurse_levels, hm, Bool.false_eq_true, if_false,
              hloop] using he
          | ok subs =>
            simpa only [recurse_levels, hm, Bool.false_eq_true, if_false,
              hloop] using he
        exact rl_loop_trace_calls _ _ _
          (fun args => ih in_levels out_levels args (add_children out_trees))
          _ e (by rw [hloop]; exact hmem)

/-- C5 counterexample: a stateful node whose broadcast evaluation raises (a
level-0 input at a declared level-1 parameter, the IndexError of C10) fires
its `start` hook but never its `stop` hook — the trace after the run is just
`[start]`, with zero `stop` events and zero callable invocations — so the
stop hook does not fire once per run unconditionally. -/
theorem stateful_stop_skipped_counterexample :
    exec_node ctxLeaf fdStatefulL1 [some emptyT] 2 =
      { res := .error .indexError, trace := [Ev.start], warns := [] } ∧
    (exec_node ctxLeaf fdStatefulL1 [some emptyT] 2).trace.count Ev.stop = 0 ∧
    (exec_node ctxLeaf fdStatefulL1 [some emptyT] 2).trace.count Ev.call = 0 :=
  ⟨rfl, rfl, rfl⟩

/-- C5 (amended): for a stateful node, one driver run fires the `start` hook
exactly once before the node's entire broadcast evaluation; when the
evaluation returns without raising, the `stop` hook fires exactly once after
it, with the underlying callable invoked exactly k times strictly between
the two hooks (the trace is `start`, k times `call`, `stop`); when the
evaluation raises, the `stop` hook is skipped — the source has no
try/finally — and the trace ends with the calls made so far. -/
theorem stateful_hooks {α : Type} (ctx : NodeCtx α) (fd : FuncDesc α)
    (out_trees : List (Option (SvDataTree α))) (fuel : Nat)
    (hs : fd.stateful = true) :
    (∀ res,
      (recurse_levels fd.impl fuel (resolve_inputs ctx fd.parameters).1
        (fd.returns.map (fun q => q.2)) (resolve_inputs ctx fd.parameters).2.1
        out_trees).1 = .ok res →
      (exec_node ctx fd out_trees fuel).trace =
        [Ev.start] ++
          List.replicate
            ((recurse_levels fd.impl fuel (resolve_inputs ctx fd.parameters).1
              (fd.returns.map (fun q => q.2))
              (resolve_inputs ctx fd.parameters).2.1 out_trees).2.length)
            Ev.call ++ [Ev.stop] ∧
      (exec_node ctx fd out_trees fuel).trace.count Ev.start = 1 ∧
      (exec_node ctx fd out_trees fuel).trace.count Ev.stop = 1 ∧
      (exec_node ctx fd out_trees fuel).trace.count Ev.call =
        (recurse_levels fd.impl fuel (resolve_inputs ctx fd.parameters).1
          (fd.returns.map (fun q => q.2))
          (resolve_inputs ctx fd.parameters).2.1 out_trees).2.length) ∧
    (∀ err,
      (recurse_levels fd.impl fuel (resolve_inputs ctx fd.parameters).1
        (fd.returns.map (fun q => q.2)) (resolve_inputs ctx fd.parameters).2.1
        out_trees).1 = .error err →
      (exec_node ctx fd out_trees fuel).trace =
        [Ev.start] ++
          List.replicate
            ((recurse_levels fd.impl fuel (resolve_inputs ctx fd.parameters).1
              (fd.returns.map (fun q => q.2))
              (resolve_inputs ctx fd.parameters).2.1 out_trees).2.length)
            Ev.call ∧
      (exec_node ctx fd out_trees fuel).trace.count Ev.start = 1 ∧
      (exec_node ctx fd out_trees fuel).trace.count Ev.stop = 0) := by
  have htr : (recurse_levels fd.impl fuel (resolve_inputs ctx fd.parameters).1
      (fd.returns.map (fun q => q.2)) (resolve_inputs ctx fd.parameters).2.1
      out_trees).2 =
      List.replicate
        ((recurse_levels fd.impl fuel (resolve_inputs ctx fd.parameters).1
          (fd.returns.map (fun q => q.2)) (resolve_inputs ctx fd.parameters).2.1
          out_trees).2.length) Ev.call := by
    rw [List.eq_replicate_iff]
    exact ⟨rfl, recurse_trace_calls fd.impl fuel _ _ _ _⟩
  constructor
  · intro res hok
    have hex : (exec_node ctx fd out_trees fuel).trace =
        [Ev.start] ++
          List.replicate
            ((recurse_levels fd.impl fuel (resolve_inputs ctx fd.parameters).1
              (fd.returns.map (fun q => q.2))
              (resolve_inputs ctx fd.parameters).2.1 out_trees).2.length)
            Ev.call ++ [Ev.stop] := by
      unfold exec_node
      simp only [hs, if_true, hok]
      rw [← htr]
    refine ⟨hex, ?_, ?_, ?_⟩ <;> rw [hex] <;>
      simp [List.count_replicate, List.count_cons, List.count_append]
  · intro err herr
    have hex : (exec_node ctx fd out_trees fuel).trace =
        [Ev.start] ++
          List.replicate
            ((recurse_levels fd.impl fuel (resolve_inputs ctx fd.parameters).1
              (fd.returns.map (fun q => q.2))
              (resolve_inputs ctx fd.parameters).2.1 out_trees).2.length)
            Ev.call := by
      unfold exec_node
      simp only [hs, if_true, herr]
      rw [← htr]
      simp
    refine ⟨hex, ?_, ?_⟩ <;> rw [hex] <;>
      simp [List.count_replicate, List.count_cons, List.count_append]

/-- Witness for C5 (amended): the stateful summation node broadcasting over
[1,2,3] and [10,20] returns normally with the trace start, three calls,
stop; the stateful node whose engine raises fires start and no stop. -/
theorem stateful_hooks_witness :
    fdAddStateful.stateful = true ∧
    (exec_node ctxAB fdAddStateful [some emptyT] 2).trace =
      [Ev.start] ++ List.replicate 3 Ev.call ++ [Ev.stop] ∧
    (exec_node ctxLeaf fdStatefulL1 [some emptyT] 2).trace.count Ev.stop = 0 :=
  ⟨rfl,
    ((stateful_hooks ctxAB fdAddStateful [some emptyT] 2 rfl).1 _ rfl).1,
    ((stateful_hooks ctxLeaf fdStatefulL1 [some emptyT] 2 rfl).2
      Err.indexError rfl).2.2⟩

/-!  Transposition lemmas for the multi-output base case. -/

theorem mapO_head {β : Type} (d : β) :
    ∀ {rows : List (List β)}, (∀ r ∈ rows, r ≠ []) →
      mapO List.head? rows = some (rows.map (fun r => r.getD 0 d)) := by
  intro rows
  induction rows with
  | nil => intro _; rfl
  | cons r rs ih =>
    intro h
    cases r with
    | nil => exact absurd rfl (h [] (by simp))
    | cons a t =>
      have := ih (fun x hx => h x (by simp [hx]))
      simp [mapO, this, List.getD]

theorem pyTransposeGo_getElem {β : Type} (d : β) :
    ∀ (j : Nat) (r0 : List β) (rest : List (List β)),
      j < r0.length → (∀ r ∈ rest, j < r.length) →
      (pyTransposeGo r0 rest)[j]? =
        some (r0.getD j d :: rest.map (fun r => r.getD j d)) := by
  intro j
  induction j with
  | zero =>
    intro r0 rest h0 hrest
    cases r0 with
    | nil => simp at h0
    | cons a xs =>
      have hne : ∀ r ∈ rest, r ≠ [] := by
        intro r hr
        have := hrest r hr
        intro hnil
        rw [hnil] at this
        simp at this
      rw [pyTransposeGo, mapO_head d hne]
      simp [List.getD]
  | succ j ih =>
    intro r0 rest h0 hrest
    cases r0 with
    | nil => simp at h0
    | cons a xs =>
      have hne : ∀ r ∈ rest, r ≠ [] := by
        intro r hr
        have := hrest r hr
        intro hnil
        rw [hnil] at this
        simp at this
      rw [pyTransposeGo, mapO_head d hne]
      have hxs : j < xs.length := by simpa using h0
      have htails : ∀ r ∈ rest.map List.tail, j < r.length := by
        intro r hr
        obtain ⟨r0, hr0, rfl⟩ := List.mem_map.mp hr
        have := hrest r0 hr0
        cases r0 with
        | nil => simp at this
        | cons b t => simpa using this
      have := ih xs (rest.map List.tail) hxs htails
      rw [List.getElem?_cons_succ, this]
      have hmap : (rest.map List.tail).map (fun r => r.getD j d) =
          rest.map (fun r => r.getD (j + 1) d) := by
        rw [List.map_map]
        apply List.map_congr_left
        intro r hr
        have := hrest r hr
        cases r with
        | nil => simp at this
        | cons b t => simp [List.getD]
      rw [hmap]
      simp [List.getD]

theorem pyTranspose_getElem {β : Type} (d : β) (rows : List (List β)) (j : Nat)
    (hne : rows ≠ []) (hall : ∀ r ∈ rows, j < r.length) :
    (pyTranspose rows)[j]? = some (rows.map (fun r => r.getD j d)) := by
  cases rows with
  | nil => exact absurd rfl hne
  | cons r0 rest =>
    rw [pyTranspose]
    rw [pyTransposeGo_getElem d j r0 rest (hall r0 (by simp))
      (fun r hr => hall r (by simp [hr]))]
    simp

theorem mapE_asSeq_map {α : Type} :
    ∀ (rows : List (List (V α))), mapE asSeq (rows.map V.seq) = .ok rows := by
  intro rows
  induction rows with
  | nil => rfl
  | cons r rs ih =>
    simp [List.map_cons, mapE, asSeq, ih]

theorem pyZipStar_rows {α : Type} (rows : List (List (V α))) :
    pyZipStar (V.seq (rows.map V.seq)) =
      .ok ((pyTranspose rows).map V.seq) := by
  rw [pyZipStar]
  simp [asSeq, mapE_asSeq_map]

theorem assignMany_ok {α : Type} :
    ∀ (ots : List (Option (SvDataTree α))) (ls : List Nat) (rs : List (V α)),
      (∀ (j : Nat) (t : SvDataTree α) (l : Nat) (r : V α),
        ots[j]? = some (some t) → ls[j]? = some l →
        rs[j]? = some r → ∃ t2, assignTree l r = .ok t2) →
      ∃ res, assignMany ots ls rs = .ok res := by
  intro ots
  induction ots with
  | nil => intro ls rs _; exact ⟨[], by cases ls <;> cases rs <;> rfl⟩
  | cons ot ots ih =>
    intro ls rs hok
    cases ls with
    | nil => exact ⟨ot :: ots, by cases rs <;> rfl⟩
    | cons l ls =>
      cases rs with
      | nil => exact ⟨ot :: ots, rfl⟩
      | cons r rs =>
        obtain ⟨res, hres⟩ := ih ls rs
          (fun j t l2 r2 h1 h2 h3 => hok (j + 1) t l2 r2 (by simpa using h1)
            (by simpa using h2) (by simpa using h3))
        cases ot with
        | none => exact ⟨none :: res, by simp only [assignMany, hres]⟩
        | some t =>
          obtain ⟨t2, ht2⟩ := hok 0 t l r (by simp) (by simp) (by simp)
          exact ⟨some t2 :: res, by simp only [assignMany, ht2, hres]⟩

theorem assignMany_getElem {α : Type} :
    ∀ (ots : List (Option (SvDataTree α))) (ls : List Nat) (rs : List (V α))
      (res : List (Option (SvDataTree α))) (j : Nat) (t : SvDataTree α)
      (l : Nat) (r : V α),
      assignMany ots ls rs = .ok res →
      ots[j]? = some (some t) → ls[j]? = some l → rs[j]? = some r →
      ∃ t2, assignTree l r = .ok t2 ∧ res[j]? = some (some t2) := by
  intro ots
  induction ots with
  | nil => intro ls rs res j t l r _ h1 _ _; simp at h1
  | cons ot ots ih =>
    intro ls rs res j t l r hm h1 h2 h3
    cases ls with
    | nil => simp at h2
    | cons l0 ls =>
      cases rs with
      | nil => simp at h3
      | cons r0 rs =>
        cases ot with
        | none =>
          cases hrest : assignMany ots ls rs with
          | error e => simp only [assignMany, hrest] at hm; cases hm
          | ok res0 =>
            simp only [assignMany, hrest] at hm
            have hres : none :: res0 = res := by
              cases hm; rfl
            cases j with
            | zero => simp at h1
            | succ j =>
              simp at h1 h2 h3
              obtain ⟨t2, ht2, hg⟩ := ih ls rs res0 j t l r hrest h1 h2 h3
              exact ⟨t2, ht2, by rw [← hres]; simpa using hg⟩
        | some t0 =>
          cases ha : assignTree l0 r0 with
          | error e => simp only [assignMany, ha] at hm; cases hm
          | ok t2 =>
            cases hrest : assignMany ots ls rs with
            | error e => simp only [assignMany, ha, hrest] at hm; cases hm
            | ok res0 =>
              simp only [assignMany, ha, hrest] at hm
              have hres : some t2 :: res0 = res := by
                cases hm; rfl
              cases j with
              | zero =>
                simp at h1 h2 h3
                subst h1; subst h2; subst h3
                exact ⟨t2, ha, by rw [← hres]; simp⟩
              | succ j =>
                simp at h1 h2 h3
                obtain ⟨t2b, ht2b, hg⟩ := ih ls rs res0 j t l r hrest h1 h2 h3
                exact ⟨t2b, ht2b, by rw [← hres]; simpa using hg⟩

/-- C8: in the engine's base case the node function fires once and its result
is written by `base_assign`; with more than one declared output and some
declared output level at least 1, the per-call results are transposed before
assignment, so output socket j receives the j-th column of the returned
sequence, each output container written at its own declared level; with all
declared output levels 0, the results are assigned positionally, without
transposition. -/
theorem base_case_multi_output {α : Type} (f : List (V α) → V α) (fuel : Nat)
    (in_levels out_levels : List Nat) (in_trees : List (SvDataTree α))
    (out_trees : List (Option (SvDataTree α)))
    (hmatch : allMatch in_trees in_levels = true) :
    recurse_levels f (fuel + 1) in_levels out_levels in_trees out_trees =
      (base_assign (f (base_args in_trees)) out_levels out_trees, [Ev.call]) ∧
    (∀ (rows : List (List (V α))) (j : Nat) (t : SvDataTree α) (l : Nat),
      f (base_args in_trees) = V.seq (rows.map V.seq) →
      1 < out_trees.length →
      rows ≠ [] →
      (∀ r ∈ rows, out_trees.length ≤ r.length) →
      (∀ x ∈ out_levels, x ≤ 1) →
      out_levels.any (fun x => 0 < x) = true →
      out_trees[j]? = some (some t) →
      out_levels[j]? = some l →
      ∃ res t2,
        base_assign (f (base_args in_trees)) out_levels out_trees = .ok res ∧
        assignTree l (V.seq (rows.map (fun r => r.getD j V.vnone))) = .ok t2 ∧
        res[j]? = some (some t2)) ∧
    (∀ (vs : List (V α)) (j : Nat) (t : SvDataTree α) (r : V α),
      f (base_args in_trees) = V.seq vs →
      1 < out_trees.length →
      (∀ x ∈ out_levels, x = 0) →
      out_trees[j]? = some (some t) →
      j < out_levels.length →
      vs[j]? = some r →
      ∃ res,
        base_assign (f (base_args in_trees)) out_levels out_trees = .ok res ∧
        res[j]? = some (some (SvDataTree.mk r []))) := by
  refine ⟨by simp [recurse_levels, hmatch], ?_, ?_⟩
  · intro rows j t l hf hlen hrne hcol hle1 hpos hjt hjl
    have hjlt : j < out_trees.length := by
      by_contra hcontra
      push_neg at hcontra
      rw [List.getElem?_eq_none hcontra] at hjt
      cases hjt
    have hba : base_assign (f (base_args in_trees)) out_levels out_trees =
        assignMany out_trees out_levels ((pyTranspose rows).map V.seq) := by
      rw [hf]
      unfold base_assign
      rw [if_pos hlen]
      simp only [hpos, if_true]
      rw [pyZipStar_rows]
    have hok : ∀ (j2 : Nat) (t2 : SvDataTree α) (l2 : Nat) (r2 : V α),
        out_trees[j2]? = some (some t2) → out_levels[j2]? = some l2 →
        ((pyTranspose rows).map V.seq)[j2]? = some r2 →
        ∃ t3, assignTree l2 r2 = .ok t3 := by
      intro j2 t2 l2 r2 _ hl2 hr2
      have hl2mem : l2 ∈ out_levels := List.getElem?_mem hl2
      have hr2mem : r2 ∈ (pyTranspose rows).map V.seq := List.getElem?_mem hr2
      obtain ⟨col, _, rfl⟩ := List.mem_map.mp hr2mem
      have := hle1 l2 hl2mem
      match l2, this with
      | 0, _ => exact ⟨.mk (V.seq col) [], rfl⟩
      | 1, _ => exact ⟨.mk V.vnone (col.map (fun v => .mk v [])), rfl⟩
    obtain ⟨res, hres⟩ := assignMany_ok out_trees out_levels _ hok
    have hcolj : ((pyTranspose rows).map V.seq)[j]? =
        some (V.seq (rows.map (fun r => r.getD j V.vnone))) := by
      have hallr : ∀ r ∈ rows, j < r.length := fun r hr =>
        Nat.lt_of_lt_of_le hjlt (hcol r hr)
      rw [List.getElem?_map, pyTranspose_getElem V.vnone rows j hrne hallr]
      rfl
    obtain ⟨t2, ht2, hg⟩ :=
      assignMany_getElem out_trees out_levels _ res j t l _ hres hjt hjl hcolj
    exact ⟨res, t2, by rw [hba]; exact hres, ht2, hg⟩
  · intro vs j t r hf hlen hzero hjt hjl hr
    have hneg : out_levels.any (fun x => 0 < x) = false := by
      rw [List.any_eq_false]
      intro x hx
      simp [hzero x hx]
    have hba : base_assign (f (base_args in_trees)) out_levels out_trees =
        assignMany out_trees out_levels vs := by
      rw [hf]
      unfold base_assign
      rw [if_pos hlen]
      simp only [hneg, Bool.false_eq_true, if_false, asSeq]
    have hok : ∀ (j2 : Nat) (t2 : SvDataTree α) (l2 : Nat) (r2 : V α),
        out_trees[j2]? = some (some t2) → out_levels[j2]? = some l2 →
        vs[j2]? = some r2 → ∃ t3, assignTree l2 r2 = .ok t3 := by
      intro j2 t2 l2 r2 _ hl2 _
      have : l2 = 0 := hzero l2 (List.getElem?_mem hl2)
      subst this
      exact ⟨.mk r2 [], rfl⟩
    obtain ⟨res, hres⟩ := assignMany_ok out_trees out_levels vs hok
    have hjl2 : out_levels[j]? = some 0 := by
      have hlt : j < out_levels.length := hjl
      have := List.getElem?_eq_getElem hlt
      rw [this]
      have : out_levels[j] = 0 :=
        hzero _ (List.getElem?_mem (List.getElem?_eq_getElem hlt))
      rw [this]
    obtain ⟨t2, ht2, hg⟩ :=
      assignMany_getElem out_trees out_levels vs res j t 0 r hres hjt hjl2 hr
    have : t2 = .mk r [] := by
      have := ht2
      simp [assignTree] at this
      exact this.symm
    subst this
    exact ⟨res, by rw [hba]; exact hres, hg⟩

/-- Witness for C8: two declared outputs at levels 1 and 0 over the returned
rows [[1,2],[3,4]] — output 0 receives the transposed column [1,3]. -/
theorem base_case_multi_output_witness :
    ∃ res t2,
      base_assign
          ((fun _ => V.seq [V.seq [V.atom 1, V.atom 2],
            V.seq [V.atom (3 : Nat), V.atom 4]]) (base_args ([] : List (SvDataTree Nat))))
          [1, 0] [some emptyT, some emptyT] = .ok res ∧
      assignTree 1 (V.seq ([[V.atom 1, V.atom 2], [V.atom (3 : Nat), V.atom 4]].map
        (fun r => r.getD 0 V.vnone))) = .ok t2 ∧
      res[0]? = some (some t2) :=
  (base_case_multi_output
      (fun _ => V.seq [V.seq [V.atom 1, V.atom 2], V.seq [V.atom 3, V.atom 4]])
      0 [] [1, 0] [] [some emptyT, some emptyT] rfl).2.1
    [[V.atom 1, V.atom 2], [V.atom 3, V.atom 4]] 0 emptyT 1 rfl
    (by decide) (by simp)
    (by intro r hr; simp at hr; rcases hr with rfl | rfl <;> simp)
    (by intro x hx; simp at hx; rcases hx with rfl | rfl <;> omega)
    rfl rfl rfl

/-!  Weight-dictionary lemmas for the scheduler. -/

section TopoLemmas

variable {ν : Type} [DecidableEq ν]

theorem lookupW_updateW_self (ws : List (ν × Nat)) (n : ν) (w : Nat) :
    lookupW (updateW ws n w) n = some w := by
  induction ws with
  | nil => simp [updateW, lookupW]
  | cons p ps ih =>
    by_cases hp : p.1 = n
    · simp [updateW, hp, lookupW]
    · simp [updateW, hp, lookupW, ih]

theorem lookupW_updateW_ne {n x : ν} (ws : List (ν × Nat)) (w : Nat)
    (h : n ≠ x) : lookupW (updateW ws n w) x = lookupW ws x := by
  induction ws with
  | nil => simp [updateW, lookupW, h]
  | cons p ps ih =>
    by_cases hp : p.1 = n
    · simp [updateW, hp, lookupW, h, hp ▸ h]
    · simp [updateW, hp, lookupW, ih]

theorem lookupW_bumpW_self (ws : List (ν × Nat)) (n : ν) (w : Nat) :
    ∃ m, lookupW (bumpW ws n w) n = some m ∧ w ≤ m := by
  unfold bumpW
  cases h : lookupW ws n with
  | none => exact ⟨w, lookupW_updateW_self ws n w, Nat.le_refl w⟩
  | some o =>
    exact ⟨max w o, lookupW_updateW_self ws n _, Nat.le_max_left w o⟩

theorem lookupW_bumpW_ne {n x : ν} (ws : List (ν × Nat)) (w : Nat)
    (h : n ≠ x) : lookupW (bumpW ws n w) x = lookupW ws x := by
  unfold bumpW
  cases lookupW ws n <;> exact lookupW_updateW_ne ws _ h

theorem wle_refl (ws : List (ν × Nat)) : wle ws ws :=
  fun _ m h => ⟨m, h, Nat.le_refl m⟩

theorem wle_trans {ws1 ws2 ws3 : List (ν × Nat)} (h1 : wle ws1 ws2)
    (h2 : wle ws2 ws3) : wle ws1 ws3 := by
  intro n m hm
  obtain ⟨m2, hm2, hle2⟩ := h1 n m hm
  obtain ⟨m3, hm3, hle3⟩ := h2 n m2 hm2
  exact ⟨m3, hm3, Nat.le_trans hle2 hle3⟩

theorem wle_bumpW (ws : List (ν × Nat)) (n : ν) (w : Nat) :
    wle ws (bumpW ws n w) := by
  intro x m hm
  by_cases hx : n = x
  · subst hx
    unfold bumpW
    rw [hm]
    exact ⟨max w m, lookupW_updateW_self ws n _, Nat.le_max_right w m⟩
  · rw [lookupW_bumpW_ne ws w hx]
    exact ⟨m, hm, Nat.le_refl m⟩

theorem lookupW_none_not_mem {ws : List (ν × Nat)} {n : ν}
    (h : lookupW ws n = none) : n ∉ keysW ws := by
  induction ws with
  | nil => simp [keysW]
  | cons p ps ih =>
    by_cases hp : p.1 = n
    · simp [lookupW, hp] at h
    · rw [lookupW, if_neg hp] at h
      intro hmem
      rw [keysW, List.map_cons] at hmem
      rcases List.mem_cons.mp hmem with h1 | h2
      · exact hp h1.symm
      · exact ih h h2

theorem keysW_updateW_some {ws : List (ν × Nat)} {n : ν} {o : Nat}
    (h : lookupW ws n = some o) (w : Nat) :
    keysW (updateW ws n w) = keysW ws := by
  induction ws with
  | nil => simp [lookupW] at h
  | cons p ps ih =>
    by_cases hp : p.1 = n
    · simp [updateW, hp, keysW]
    · simp [lookupW, hp] at h
      simp [updateW, hp, keysW]
      simpa [keysW] using ih h

theorem keysW_updateW_none {ws : List (ν × Nat)} {n : ν}
    (h : lookupW ws n = none) (w : Nat) :
    keysW (updateW ws n w) = keysW ws ++ [n] := by
  induction ws with
  | nil => simp [updateW, keysW]
  | cons p ps ih =>
    by_cases hp : p.1 = n
    · simp [lookupW, hp] at h
    · simp [lookupW, hp] at h
      simp [updateW, hp, keysW]
      simpa [keysW] using ih h

theorem nodup_keysW_bumpW {ws : List (ν × Nat)} (n : ν) (w : Nat)
    (h : (keysW ws).Nodup) : (keysW (bumpW ws n w)).Nodup := by
  unfold bumpW
  cases hl : lookupW ws n with
  | none =>
    rw [keysW_updateW_none hl]
    have hnm : n ∉ keysW ws := lookupW_none_not_mem hl
    simp [List.nodup_append, h, hnm]
  | some o => rw [keysW_updateW_some hl]; exact h

theorem mem_of_lookupW {ws : List (ν × Nat)} {n : ν} {m : Nat}
    (h : lookupW ws n = some m) : (n, m) ∈ ws := by
  induction ws with
  | nil => simp [lookupW] at h
  | cons p ps ih =>
    rcases p with ⟨a, b⟩
    by_cases hp : a = n
    · subst hp
      simp [lookupW] at h
      subst h
      exact List.mem_cons_self _ _
    · simp [lookupW, hp] at h
      exact List.mem_cons_of_mem _ (ih h)

theorem lookupW_of_mem_nodup {ws : List (ν × Nat)} {n : ν} {m : Nat}
    (hnd : (keysW ws).Nodup) (h : (n, m) ∈ ws) : lookupW ws n = some m := by
  induction ws with
  | nil => simp at h
  | cons p ps ih =>
    rcases p with ⟨a, b⟩
    have hnd2 : a ∉ keysW ps ∧ (keysW ps).Nodup := by
      rw [keysW, List.map_cons] at hnd
      exact ⟨(List.nodup_cons.mp hnd).1, (List.nodup_cons.mp hnd).2⟩
    rcases List.mem_cons.mp h with heq | hmem
    · cases heq
      simp [lookupW]
    · by_cases hp : a = n
      · subst hp
        exact absurd (List.mem_map_of_mem (fun p => p.1) hmem) hnd2.1
      · simp only [lookupW, if_neg hp]
        exact ih hnd2.2 hmem

theorem lookupW_isSome_of_mem_keys {ws : List (ν × Nat)} {n : ν}
    (h : n ∈ keysW ws) : ∃ m, lookupW ws n = some m := by
  induction ws with
  | nil => simp [keysW] at h
  | cons p ps ih =>
    rcases p with ⟨a, b⟩
    by_cases hp : a = n
    · exact ⟨b, by simp [lookupW, hp]⟩
    · have hmem : n ∈ keysW ps := by
        rw [keysW, List.map_cons] at h
        rcases List.mem_cons.mp h with h1 | h2
        · exact absurd h1.symm hp
        · exact h2
      obtain ⟨m, hm⟩ := ih hmem
      exact ⟨m, by simp [lookupW, hp, hm]⟩

/-!  Parametric lemmas about the `visitList` fold. -/

theorem visitList_mono {vis : ν → List (ν × Nat) → Option (List (ν × Nat))}
    (hmono : ∀ v ws ws2, vis v ws = some ws2 → wle ws ws2) :
    ∀ (l : List ν) (ws ws2 : List (ν × Nat)),
      visitList vis l ws = some ws2 → wle ws ws2 := by
  intro l
  induction l with
  | nil =>
    intro ws ws2 h
    rw [visitList] at h
    cases h
    exact wle_refl _
  | cons v vs ih =>
    intro ws ws2 h
    rw [visitList] at h
    cases hv : vis v ws with
    | none => rw [hv] at h; cases h
    | some ws1 =>
      rw [hv] at h
      exact wle_trans (hmono v ws ws1 hv) (ih ws1 ws2 h)

omit [DecidableEq ν] in
theorem visitList_pres {P : List (ν × Nat) → Prop}
    {vis : ν → List (ν × Nat) → Option (List (ν × Nat))}
    (hpres : ∀ v ws ws2, vis v ws = some ws2 → P ws → P ws2) :
    ∀ (l : List ν) (ws ws2 : List (ν × Nat)),
      visitList vis l ws = some ws2 → P ws → P ws2 := by
  intro l
  induction l with
  | nil =>
    intro ws ws2 h hp
    rw [visitList] at h
    cases h
    exact hp
  | cons v vs ih =>
    intro ws ws2 h hp
    rw [visitList] at h
    cases hv : vis v ws with
    | none => rw [hv] at h; cases h
    | some ws1 =>
      rw [hv] at h
      exact ih ws1 ws2 h (hpres v ws ws1 hv hp)

theorem visit_mono (links : ν → List ν) :
    ∀ (fuel : Nat) (n : ν) (w : Nat) (ws ws2 : List (ν × Nat)),
      visit links fuel n w ws = some ws2 → wle ws ws2 := by
  intro fuel
  induction fuel with
  | zero => intro n w ws ws2 h; rw [visit] at h; cases h
  | succ fuel ih =>
    intro n w ws ws2 h
    rw [visit] at h
    exact wle_trans (wle_bumpW ws n w)
      (visitList_mono (fun v ws ws2 hv => ih v (w + 1) ws ws2 hv) _ _ _ h)

theorem visit_nodup (links : ν → List ν) :
    ∀ (fuel : Nat) (n : ν) (w : Nat) (ws ws2 : List (ν × Nat)),
      visit links fuel n w ws = some ws2 → (keysW ws).Nodup →
        (keysW ws2).Nodup := by
  intro fuel
  induction fuel with
  | zero => intro n w ws ws2 h; rw [visit] at h; cases h
  | succ fuel ih =>
    intro n w ws ws2 h hnd
    rw [visit] at h
    exact visitList_pres (fun v ws ws2 hv => ih v (w + 1) ws ws2 hv) _ _ _ h
      (nodup_keysW_bumpW n w hnd)

theorem visit_self (links : ν → List ν) (fuel : Nat) (n : ν) (w : Nat)
    (ws ws2 : List (ν × Nat)) (h : visit links (fuel + 1) n w ws = some ws2) :
    ∃ m, lookupW ws2 n = some m ∧ w ≤ m := by
  rw [visit] at h
  obtain ⟨m0, hm0, hle0⟩ := lookupW_bumpW_self ws n w
  obtain ⟨m, hm, hle⟩ :=
    visitList_mono (fun v ws ws2 hv => visit_mono links fuel v (w + 1) ws ws2 hv)
      _ _ _ h n m0 hm0
  exact ⟨m, hm, Nat.le_trans hle0 hle⟩

theorem visitList_elem {vis : ν → List (ν × Nat) → Option (List (ν × Nat))}
    (hmono : ∀ v ws ws2, vis v ws = some ws2 → wle ws ws2)
    (v0 x : ν) (c : Nat)
    (hgoal : ∀ ws ws2, vis v0 ws = some ws2 →
      ∃ m, lookupW ws2 x = some m ∧ c ≤ m) :
    ∀ (l : List ν) (ws ws2 : List (ν × Nat)),
      visitList vis l ws = some ws2 → v0 ∈ l →
        ∃ m, lookupW ws2 x = some m ∧ c ≤ m := by
  intro l
  induction l with
  | nil => intro ws ws2 _ hmem; simp at hmem
  | cons v vs ih =>
    intro ws ws2 h hmem
    rw [visitList] at h
    cases hv : vis v ws with
    | none => rw [hv] at h; cases h
    | some ws1 =>
      rw [hv] at h
      rcases List.mem_cons.mp hmem with rfl | hmem2
      · obtain ⟨m, hm, hc⟩ := hgoal ws ws1 hv
        obtain ⟨m2, hm2, hle⟩ := visitList_mono hmono vs ws1 ws2 h x m hm
        exact ⟨m2, hm2, Nat.le_trans hc hle⟩
      · exact ih ws1 ws2 h hmem2

theorem visit_complete (links : ν → List ν) :
    ∀ (fuel : Nat) (n : ν) (w : Nat) (ws ws2 : List (ν × Nat)),
      visit links fuel n w ws = some ws2 →
      ∀ (x : ν) (d : Nat), Dist links n x d →
        ∃ m, lookupW ws2 x = some m ∧ w + d ≤ m := by
  intro fuel
  induction fuel with
  | zero => intro n w ws ws2 h; rw [visit] at h; cases h
  | succ fuel ih =>
    intro n w ws ws2 h x d hd
    cases hd with
    | refl =>
      obtain ⟨m, hm, hle⟩ := visit_self links fuel n w ws ws2 h
      exact ⟨m, hm, by omega⟩
    | step hv hd2 =>
      rw [visit] at h
      refine visitList_elem
        (fun v2 wsa wsb hvb => visit_mono links fuel v2 (w + 1) wsa wsb hvb)
        _ _ _ (fun wsa wsb hvb => ?_) (links n) _ _ h hv
      obtain ⟨m, hm, hle⟩ := ih _ (w + 1) wsa wsb hvb x _ hd2
      exact ⟨m, hm, by omega⟩

theorem bumpW_sound {ws : List (ν × Nat)} {n x : ν} {w m : Nat}
    (h : lookupW (bumpW ws n w) x = some m) :
    lookupW ws x = some m ∨ (x = n ∧ m = w) := by
  by_cases hx : n = x
  · subst hx
    unfold bumpW at h
    cases hl : lookupW ws n with
    | none =>
      rw [hl, lookupW_updateW_self] at h
      exact Or.inr ⟨rfl, (Option.some.inj h).symm⟩
    | some o =>
      rw [hl, lookupW_updateW_self] at h
      have hm : max w o = m := Option.some.inj h
      rcases Nat.le_total w o with hle | hle
      · rw [Nat.max_eq_right hle] at hm
        exact Or.inl (congrArg some hm)
      · rw [Nat.max_eq_left hle] at hm
        exact Or.inr ⟨rfl, hm.symm⟩
  · rw [lookupW_bumpW_ne ws w hx] at h
    exact Or.inl h

theorem visitList_sound (Q : ν → ν → Nat → Prop)
    {vis : ν → List (ν × Nat) → Option (List (ν × Nat))}
    (hsound : ∀ v ws ws2, vis v ws = some ws2 → ∀ x m,
      lookupW ws2 x = some m → lookupW ws x = some m ∨ Q v x m) :
    ∀ (l : List ν) (ws ws2 : List (ν × Nat)),
      visitList vis l ws = some ws2 → ∀ x m, lookupW ws2 x = some m →
        lookupW ws x = some m ∨ ∃ v ∈ l, Q v x m := by
  intro l
  induction l with
  | nil =>
    intro ws ws2 h x m hm
    rw [visitList] at h
    cases h
    exact Or.inl hm
  | cons v vs ih =>
    intro ws ws2 h x m hm
    rw [visitList] at h
    cases hv : vis v ws with
    | none => rw [hv] at h; cases h
    | some ws1 =>
      rw [hv] at h
      rcases ih ws1 ws2 h x m hm with h1 | ⟨v2, hv2, hq⟩
      · rcases hsound v ws ws1 hv x m h1 with h2 | hq
        · exact Or.inl h2
        · exact Or.inr ⟨v, by simp, hq⟩
      · exact Or.inr ⟨v2, by simp [hv2], hq⟩

theorem visit_sound (links : ν → List ν) :
    ∀ (fuel : Nat) (n : ν) (w : Nat) (ws ws2 : List (ν × Nat)),
      visit links fuel n w ws = some ws2 →
      ∀ (x : ν) (m : Nat), lookupW ws2 x = some m →
        lookupW ws x = some m ∨ ∃ d, Dist links n x d ∧ m = w + d := by
  intro fuel
  induction fuel with
  | zero => intro n w ws ws2 h; rw [visit] at h; cases h
  | succ fuel ih =>
    intro n w ws ws2 h x m hm
    rw [visit] at h
    have hstep := visitList_sound
      (fun v x m => ∃ d, Dist links v x d ∧ m = (w + 1) + d)
      (fun v wsa wsb hvb x2 m2 hm2 => ih v (w + 1) wsa wsb hvb x2 m2 hm2)
      (links n) _ _ h x m hm
    rcases hstep with hws1 | ⟨v, hvmem, d, hd, hmd⟩
    · rcases bumpW_sound hws1 with hws | ⟨hxn, hmw⟩
      · exact Or.inl hws
      · subst hxn
        exact Or.inr ⟨0, Dist.refl x, by omega⟩
    · exact Or.inr ⟨d + 1, Dist.step hvmem hd, by omega⟩

omit [DecidableEq ν] in
theorem Dist_snoc {links : ν → List ν} :
    ∀ {s u : ν} {d : Nat}, Dist links s u d →
      ∀ {v : ν}, v ∈ links u → Dist links s v (d + 1) := by
  intro s u d h
  induction h with
  | refl n => intro v hv; exact Dist.step hv (Dist.refl v)
  | step hmem _ ih => intro v hv; exact Dist.step hmem (ih hv)

/-- Summary of one complete `topo_sort` traversal: the recorded weight of a
node is exactly the maximum backward-path distance from any start, every
backward-reachable node is recorded with at least its distance, and the
recorded keys are distinct. -/
theorem run_weights (links : ν → List ν) (starts : List ν) (fuel : Nat)
    (ws : List (ν × Nat))
    (hrun : visitList (fun s ws0 => visit links fuel s 0 ws0) starts [] =
      some ws) :
    (∀ (s : ν) (x : ν) (d : Nat), s ∈ starts → Dist links s x d →
      ∃ m, lookupW ws x = some m ∧ d ≤ m) ∧
    (∀ (x : ν) (m : Nat), lookupW ws x = some m ↔
      ((∃ s ∈ starts, Dist links s x m) ∧
        (∀ s ∈ starts, ∀ d, Dist links s x d → d ≤ m))) ∧
    (keysW ws).Nodup := by
  have hcomplete : ∀ (s : ν) (x : ν) (d : Nat), s ∈ starts →
      Dist links s x d → ∃ m, lookupW ws x = some m ∧ d ≤ m := by
    intro s x d hs hd
    have hel := visitList_elem
      (fun v wsa wsb (hvb : visit links fuel v 0 wsa = some wsb) =>
        visit_mono links fuel v 0 wsa wsb hvb)
      s x (0 + d)
      (fun wsa wsb hvb => visit_complete links fuel s 0 wsa wsb hvb x d hd)
      starts [] ws hrun hs
    obtain ⟨m, hm, hle⟩ := hel
    exact ⟨m, hm, by omega⟩
  have hsound : ∀ (x : ν) (m : Nat), lookupW ws x = some m →
      ∃ s ∈ starts, Dist links s x m := by
    intro x m hm
    have hvs := visitList_sound
      (fun s x m => ∃ d, Dist links s x d ∧ m = 0 + d)
      (fun s wsa wsb hvb x2 m2 hm2 => visit_sound links fuel s 0 wsa wsb hvb
        x2 m2 hm2)
      starts [] ws hrun x m hm
    rcases hvs with hnil | ⟨s, hs, d, hd, hmd⟩
    · rw [lookupW] at hnil; cases hnil
    · have : m = d := by omega
      subst this
      exact ⟨s, hs, hd⟩
  refine ⟨hcomplete, ?_, ?_⟩
  · intro x m
    constructor
    · intro hm
      refine ⟨hsound x m hm, ?_⟩
      intro s hs d hd
      obtain ⟨m2, hm2, hle⟩ := hcomplete s x d hs hd
      rw [hm] at hm2
      cases hm2
      exact hle
    · rintro ⟨⟨s, hs, hd⟩, hmax⟩
      obtain ⟨m2, hm2, hle⟩ := hcomplete s x m hs hd
      obtain ⟨s2, hs2, hd2⟩ := hsound x m2 hm2
      have : m2 ≤ m := hmax s2 hs2 m2 hd2
      have : m2 = m := Nat.le_antisymm this hle
      rw [hm2, this]
  · exact visitList_pres
      (fun v wsa wsb hvb hnd => visit_nodup links fuel v 0 wsa wsb hvb hnd)
      starts [] ws hrun (by simp [keysW])

/-!  Lemmas about the descending sort. -/

omit [DecidableEq ν] in
theorem insertDesc_perm (p : ν × Nat) (l : List (ν × Nat)) :
    List.Perm (insertDesc p l) (p :: l) := by
  induction l with
  | nil => exact List.Perm.refl _
  | cons q qs ih =>
    rw [insertDesc]
    by_cases h : p.2 ≤ q.2
    · rw [if_pos h]
      exact (ih.cons q).trans (List.Perm.swap p q qs)
    · rw [if_neg h]

omit [DecidableEq ν] in
theorem sortDesc_perm (l : List (ν × Nat)) : List.Perm (sortDesc l) l := by
  induction l with
  | nil => exact List.Perm.refl _
  | cons p ps ih =>
    rw [sortDesc]
    exact (insertDesc_perm p (sortDesc ps)).trans (ih.cons p)

omit [DecidableEq ν] in
theorem insertDesc_sorted (p : ν × Nat) {l : List (ν × Nat)}
    (hl : List.Pairwise (fun a b : ν × Nat => b.2 ≤ a.2) l) :
    List.Pairwise (fun a b : ν × Nat => b.2 ≤ a.2) (insertDesc p l) := by
  induction l with
  | nil => simp [insertDesc]
  | cons q qs ih =>
    rw [insertDesc]
    rw [List.pairwise_cons] at hl
    by_cases h : p.2 ≤ q.2
    · rw [if_pos h]
      rw [List.pairwise_cons]
      refine ⟨?_, ih hl.2⟩
      intro b hb
      have hmem := (insertDesc_perm p qs).mem_iff.mp hb
      rcases List.mem_cons.mp hmem with rfl | hb2
      · exact h
      · exact hl.1 b hb2
    · rw [if_neg h]
      rw [List.pairwise_cons]
      refine ⟨?_, List.pairwise_cons.mpr hl⟩
      intro b hb
      rcases List.mem_cons.mp hb with rfl | hb2
      · omega
      · exact Nat.le_trans (hl.1 b hb2) (by omega)

omit [DecidableEq ν] in
theorem sortDesc_sorted (l : List (ν × Nat)) :
    List.Pairwise (fun a b : ν × Nat => b.2 ≤ a.2) (sortDesc l) := by
  induction l with
  | nil => simp [sortDesc]
  | cons p ps ih => exact insertDesc_sorted p ih

theorem idxOf_lt {l : List (ν × Nat)}
    (hs : List.Pairwise (fun a b : ν × Nat => b.2 ≤ a.2) l)
    (hnd : (l.map (fun p => p.1)).Nodup) {u v : ν} {wu wv : Nat}
    (hu : (u, wu) ∈ l) (hv : (v, wv) ∈ l) (hlt : wu < wv) :
    idxOf v (l.map (fun p => p.1)) < idxOf u (l.map (fun p => p.1)) := by
  induction l with
  | nil => simp at hu
  | cons q t ih =>
    rw [List.pairwise_cons] at hs
    rw [List.map_cons, List.nodup_cons] at hnd
    have key : ∀ (z : ν) (wz : Nat), (z, wz) ∈ q :: t → q.1 = z →
        q = (z, wz) := by
      intro z wz hmem heq
      rcases List.mem_cons.mp hmem with h1 | h2
      · exact h1.symm
      · exact absurd (heq ▸ List.mem_map_of_mem (fun p => p.1) h2) hnd.1
    by_cases hqv : q.1 = v
    · have hq : q = (v, wv) := key v wv hv hqv
      have hqu : q.1 ≠ u := by
        intro hc
        have := key u wu hu hc
        rw [hq] at this
        cases this
        omega
      rw [List.map_cons, idxOf, idxOf, if_pos hqv, if_neg hqu]
      omega
    · have hvt : (v, wv) ∈ t := by
        rcases List.mem_cons.mp hv with h1 | h2
        · exact absurd (by rw [← h1]) hqv
        · exact h2
      by_cases hqu : q.1 = u
      · have hq : q = (u, wu) := key u wu hu hqu
        have : wv ≤ wu := by
          have := hs.1 (v, wv) hvt
          rw [hq] at this
          exact this
        omega
      · have hut : (u, wu) ∈ t := by
          rcases List.mem_cons.mp hu with h1 | h2
          · exact absurd (by rw [← h1]) hqu
          · exact h2
        have := ih hs.2 hnd.2 hut hvt
        rw [List.map_cons, idxOf, idxOf, if_neg hqv, if_neg hqu]
        omega

end TopoLemmas

section Termination

variable {ν : Type} [DecidableEq ν]

omit [DecidableEq ν] in
theorem dist_iff_pathL {links : ν → List ν} {n x : ν} {d : Nat} :
    Dist links n x d ↔ ∃ l, PathL links n l x ∧ l.length = d := by
  constructor
  · intro h
    induction h with
    | refl n => exact ⟨[], PathL.nil n, rfl⟩
    | step hv _ ih =>
      obtain ⟨l, hp, hlen⟩ := ih
      exact ⟨_ :: l, PathL.cons hv hp, by simp [hlen]⟩
  · rintro ⟨l, hp, rfl⟩
    induction hp with
    | nil n => exact Dist.refl n
    | cons hv _ ih => exact Dist.step hv ih

theorem mem_of_alookup {L : List (ν × List ν)} {n : ν} {vs : List ν}
    (h : alookup L n = some vs) : (n, vs) ∈ L := by
  induction L with
  | nil => simp [alookup] at h
  | cons p ps ih =>
    rcases p with ⟨a, b⟩
    by_cases hp : a = n
    · subst hp
      simp [alookup] at h
      subst h
      exact List.mem_cons_self _ _
    · simp [alookup, hp] at h
      exact List.mem_cons_of_mem _ (ih h)

theorem mem_linksOf_targets {L : List (ν × List ν)} {n v : ν}
    (h : v ∈ linksOf L n) : v ∈ targetsOf L := by
  unfold linksOf at h
  cases hl : alookup L n with
  | none => rw [hl] at h; simp at h
  | some vs =>
    rw [hl] at h
    simp only [Option.getD_some] at h
    exact List.mem_flatten.mpr
      ⟨vs, List.mem_map_of_mem (fun p => p.2) (mem_of_alookup hl), h⟩

theorem pathL_mem_targets {L : List (ν × List ν)} :
    ∀ {n : ν} {l : List ν} {x : ν}, PathL (linksOf L) n l x →
      ∀ v ∈ l, v ∈ targetsOf L := by
  intro n l x hp
  induction hp with
  | nil n => intro v hv; simp at hv
  | cons hv _ ih =>
    intro v2 hv2
    rcases List.mem_cons.mp hv2 with rfl | hv3
    · exact mem_linksOf_targets hv
    · exact ih v2 hv3

omit [DecidableEq ν] in
theorem not_nodup_split {l : List ν} (h : ¬ l.Nodup) :
    ∃ a l1 l2 l3, l = l1 ++ (a :: (l2 ++ (a :: l3))) := by
  induction l with
  | nil => exact absurd List.nodup_nil h
  | cons x xs ih =>
    by_cases hx : x ∈ xs
    · obtain ⟨s, t, rfl⟩ := List.append_of_mem hx
      exact ⟨x, [], s, t, rfl⟩
    · have hxs : ¬ xs.Nodup := by
        intro hnd
        exact h (List.nodup_cons.mpr ⟨hx, hnd⟩)
      obtain ⟨a, l1, l2, l3, rfl⟩ := ih hxs
      exact ⟨a, x :: l1, l2, l3, rfl⟩

omit [DecidableEq ν] in
theorem pathL_append_split {links : ν → List ν} :
    ∀ (l1 : List ν) {n x : ν} {l2 : List ν},
      PathL links n (l1 ++ l2) x →
      ∃ m, PathL links n l1 m ∧ PathL links m l2 x := by
  intro l1
  induction l1 with
  | nil => intro n x l2 h; exact ⟨n, PathL.nil n, h⟩
  | cons v t ih =>
    intro n x l2 h
    cases h with
    | cons hv hrest =>
      obtain ⟨m, p1, p2⟩ := ih hrest
      exact ⟨m, PathL.cons hv p1, p2⟩

omit [DecidableEq ν] in
theorem pathL_snoc {links : ν → List ν} :
    ∀ {n m : ν} {l : List ν}, PathL links n l m →
      ∀ {v : ν}, v ∈ links m → PathL links n (l ++ [v]) v := by
  intro n m l hp
  induction hp with
  | nil n => intro v hv; exact PathL.cons hv (PathL.nil v)
  | cons hmem _ ih => intro v hv; exact PathL.cons hmem (ih hv)

omit [DecidableEq ν] in
theorem cycle_of_dup {links : ν → List ν} {n x a : ν} {l1 l2 l3 : List ν}
    (hp : PathL links n (l1 ++ (a :: (l2 ++ (a :: l3)))) x) :
    Dist links a a (l2.length + 1) := by
  obtain ⟨m1, _, p2⟩ := pathL_append_split l1 hp
  cases p2 with
  | cons ha1 p3 =>
    obtain ⟨m2, p4, p5⟩ := pathL_append_split l2 p3
    cases p5 with
    | cons ha2 _ =>
      have := pathL_snoc p4 ha2
      exact dist_iff_pathL.mpr ⟨l2 ++ [a], this, by simp⟩

theorem dist_le_of_acyclic {L : List (ν × List ν)}
    (hacy : ∀ (n : ν) (d : Nat), 0 < d → ¬ Dist (linksOf L) n n d) :
    ∀ (n x : ν) (d : Nat), Dist (linksOf L) n x d →
      d ≤ (targetsOf L).length := by
  intro n x d hd
  by_contra hgt
  push_neg at hgt
  obtain ⟨l, hp, hlen⟩ := dist_iff_pathL.mp hd
  have hsub : ∀ v ∈ l, v ∈ targetsOf L := pathL_mem_targets hp
  have hnotnodup : ¬ l.Nodup := by
    intro hnd
    have hsubset : l ⊆ targetsOf L := fun {v} hv => hsub v hv
    have := (hnd.subperm hsubset).length_le
    omega
  obtain ⟨a, l1, l2, l3, heq⟩ := not_nodup_split hnotnodup
  rw [heq] at hp
  exact hacy a (l2.length + 1) (by omega) (cycle_of_dup hp)

omit [DecidableEq ν] in
theorem visitList_total {vis : ν → List (ν × Nat) → Option (List (ν × Nat))} :
    ∀ (l : List ν), (∀ v ∈ l, ∀ ws, ∃ ws2, vis v ws = some ws2) →
      ∀ ws, ∃ ws2, visitList vis l ws = some ws2 := by
  intro l
  induction l with
  | nil => intro _ ws; exact ⟨ws, rfl⟩
  | cons v vs ih =>
    intro h ws
    obtain ⟨ws1, hws1⟩ := h v (by simp) ws
    obtain ⟨ws2, hws2⟩ := ih (fun v2 hv2 => h v2 (by simp [hv2])) ws1
    exact ⟨ws2, by simp [visitList, hws1, hws2]⟩

theorem visit_total (links : ν → List ν) :
    ∀ (k : Nat) (n : ν), (∀ (x : ν) (d : Nat), Dist links n x d → d ≤ k) →
      ∀ (w : Nat) (ws : List (ν × Nat)),
        ∃ ws2, visit links (k + 1) n w ws = some ws2 := by
  intro k
  induction k with
  | zero =>
    intro n hbound w ws
    have hnil : links n = [] := by
      cases hl : links n with
      | nil => rfl
      | cons v vs =>
        exfalso
        have hd : Dist links n v 1 :=
          Dist.step (by rw [hl]; simp) (Dist.refl v)
        have := hbound v 1 hd
        omega
    rw [visit, hnil]
    exact ⟨_, rfl⟩
  | succ k ih =>
    intro n hbound w ws
    rw [visit]
    apply visitList_total
    intro v hv ws0
    exact ih v
      (fun x d hd => by
        have := hbound x (d + 1) (Dist.step hv hd)
        omega)
      (w + 1) ws0

end Termination

/-- C9: `topo_sort` terminates for every finite dependency adjacency whose
producer/consumer relation is acyclic (some fuel suffices), while for the
self-loop adjacency — a cycle reachable from the start — the traversal
diverges: no amount of fuel produces a result, and no cycle check is
performed before or during scheduling. -/
theorem topo_sort_termination :
    (∀ (ν : Type) [DecidableEq ν] (L : List (ν × List ν)) (starts : List ν),
      (∀ (n : ν) (d : Nat), 0 < d → ¬ Dist (linksOf L) n n d) →
      ∃ fuel order, topo_sort (linksOf L) starts fuel = some order) ∧
    (∀ fuel, topo_sort cycLinks [1] fuel = none) := by
  constructor
  · intro ν _ L starts hacy
    have hb := dist_le_of_acyclic hacy
    obtain ⟨ws, hws⟩ := visitList_total starts
      (fun s _ ws0 => visit_total (linksOf L) (targetsOf L).length s
        (fun x d hd => hb s x d hd) 0 ws0) []
    exact ⟨(targetsOf L).length + 1, (sortDesc ws).map (fun p => p.1),
      by rw [topo_sort, hws]; rfl⟩
  · have hvisit : ∀ (fuel w : Nat) (ws : List (Nat × Nat)),
        visit cycLinks fuel 1 w ws = none := by
      intro fuel
      induction fuel with
      | zero => intro w ws; rw [visit]
      | succ fuel ih =>
        intro w ws
        rw [visit]
        show visitList _ (cycLinks 1) _ = none
        rw [show cycLinks 1 = [1] from rfl, visitList, ih (w + 1)]
    intro fuel
    rw [topo_sort, visitList, hvisit fuel 0 []]
    rfl

/-- Witness for C9: the one-edge acyclic adjacency terminates with some fuel,
and the self-loop diverges at fuel 5. -/
theorem topo_sort_termination_witness :
    (∃ fuel order, topo_sort (linksOf acyL) [1] fuel = some order) ∧
    topo_sort cycLinks [1] 5 = none :=
  ⟨topo_sort_termination.1 Nat acyL [1]
      (by
        intro n d hd hdist
        cases hdist with
        | refl => omega
        | step hv hrest =>
          by_cases hn : n = 1
          · subst hn
            have hv0 : _ ∈ linksOf acyL 1 := hv
            rw [show linksOf acyL 1 = [0] from rfl] at hv0
            simp at hv0
            subst hv0
            cases hrest with
            | step hv2 _ =>
              rw [show linksOf acyL 0 = [] from rfl] at hv2
              simp at hv2
          · have : linksOf acyL n = [] := by
              unfold linksOf acyL
              rw [alookup]
              simp [Ne.symm hn, alookup]
            rw [this] at hv
            simp at hv),
    topo_sort_termination.2 5⟩

/-- C2: whenever `topo_sort` returns a schedule, every producer is placed
before every consumer that depends on it, and the traversal's weight
dictionary records, for each visited node, exactly the maximum distance over
all backward paths from any start node — a node reachable via multiple paths
takes the maximum weight, not the first-seen one. -/
theorem topo_sort_correct {ν : Type} [DecidableEq ν] (links : ν → List ν)
    (starts : List ν) (fuel : Nat) (order : List ν)
    (h : topo_sort links starts fuel = some order) :
    (∀ u v, v ∈ links u → u ∈ order →
      v ∈ order ∧ idxOf v order < idxOf u order) ∧
    (∃ ws, visitList (fun s ws0 => visit links fuel s 0 ws0) starts [] =
        some ws ∧
      order = (sortDesc ws).map (fun p => p.1) ∧
      ∀ x m, lookupW ws x = some m ↔
        ((∃ s ∈ starts, Dist links s x m) ∧
          (∀ s ∈ starts, ∀ d, Dist links s x d → d ≤ m))) := by
  unfold topo_sort at h
  cases hrun : visitList (fun s ws0 => visit links fuel s 0 ws0) starts []
    with
  | none => rw [hrun] at h; cases h
  | some ws =>
    rw [hrun] at h
    have horder : order = (sortDesc ws).map (fun p => p.1) :=
      (Option.some.inj h).symm
    obtain ⟨hcomplete, hiff, hnd⟩ := run_weights links starts fuel ws hrun
    refine ⟨?_, ws, rfl, horder, hiff⟩
    intro u v hv hu
    have hperm : List.Perm ((sortDesc ws).map (fun p => p.1)) (keysW ws) :=
      (sortDesc_perm ws).map _
    have humem : u ∈ keysW ws := hperm.mem_iff.mp (horder ▸ hu)
    obtain ⟨wu, hwu⟩ := lookupW_isSome_of_mem_keys humem
    obtain ⟨⟨s, hs, hdist⟩, _⟩ := (hiff u wu).mp hwu
    have hdv : Dist links s v (wu + 1) := Dist_snoc hdist hv
    obtain ⟨wv, hwv, hlev⟩ := hcomplete s v (wu + 1) hs hdv
    have hvmem : v ∈ keysW ws :=
      List.mem_map_of_mem (fun p => p.1) (mem_of_lookupW hwv)
    have hvorder : v ∈ order := by
      rw [horder]
      exact hperm.mem_iff.mpr hvmem
    refine ⟨hvorder, ?_⟩
    have hnds : ((sortDesc ws).map (fun p => p.1)).Nodup :=
      hperm.nodup_iff.mpr hnd
    have husort : (u, wu) ∈ sortDesc ws :=
      (sortDesc_perm ws).mem_iff.mpr (mem_of_lookupW hwu)
    have hvsort : (v, wv) ∈ sortDesc ws :=
      (sortDesc_perm ws).mem_iff.mpr (mem_of_lookupW hwv)
    have hlt : wu < wv := by omega
    have hidx := idxOf_lt (sortDesc_sorted ws) hnds husort hvsort hlt
    rw [horder]
    exact hidx

/-- Witness for C2: the diamond-with-tail adjacency schedules the shared
producer 0 first (weight 3, the longer of its two path distances 2 and 3)
and before its consumer 1. -/
theorem topo_sort_correct_witness :
    topo_sort dLinks [3] 5 = some [0, 4, 2, 1, 3] ∧
    ((0 : Nat) ∈ [0, 4, 2, 1, 3] ∧
      idxOf 0 [0, 4, 2, 1, 3] < idxOf 1 [0, 4, 2, 1, 3]) :=
  ⟨by decide,
    (topo_sort_correct dLinks [3] 5 [0, 4, 2, 1, 3] (by decide)).1 1 0
      (by decide) (by decide)⟩

end SvRx
